import Mathlib

/-!
# Verification of the SharpTools unified-diff parser/model-builder

Shallow embedding of `sharptools/diff/basic-diff.ts` (the parser
`parseUnifiedDiff`, the status classifier `inferStatus`, the stable id
generator `stableHash`, the context enricher `enrichHunksWithContext`)
and of the equivalence-verifier tokenizers `tokenizeRawDiffHunks` /
`tokenizeBasicHunks`.

Conventions of the embedding:
* A physical line of the diff is a `List Char` (no `'\n'` inside).
* TypeScript `string | undefined` fields become `Option String`;
  JavaScript truthiness tests on such fields are embedded by
  `jsTruthy` (both `undefined` and `""` are falsy).
* In-place mutation of the "current file" record and of the hunk being
  built is embedded as explicit state threading; arrays that the source
  grows with `push` are accumulated in reverse (`…Rev` fields) and
  reversed when the owning record is finalized.
* `createHash('sha1')…digest('base64url')` is embedded by a full
  executable SHA-1 plus base64url encoder over byte lists (`Nat`s).
-/

set_option maxRecDepth 10000

namespace SharpTools

/-! ## JavaScript-flavoured helpers -/

/-- Truthiness of a `string | undefined` value: `undefined` and the
empty string are falsy. -/
def jsTruthy : Option String → Bool
  | none => false
  | some s => !(s == "")

/-- `a || b` on `string | undefined` values. -/
def jsOr (a b : Option String) : Option String :=
  if jsTruthy a then a else b

/-- ASCII part of the JavaScript `\s` character class. -/
def jsWs (c : Char) : Bool :=
  c == ' ' || c == '\t' || c == '\r' || c == '\n' ||
  c == '\x0b' || c == '\x0c'

/-- JavaScript `String.prototype.trim` on a character list. -/
def jsTrimChars (l : List Char) : List Char :=
  ((l.dropWhile jsWs).reverse.dropWhile jsWs).reverse

/-- Splitting `text.replace(/\r\n/g, '\n').split('\n')` in one pass:
`"\r\n"` and `"\n"` both end a line, a lone `'\r'` stays in the line. -/
def splitLinesAux : List Char → List Char → List (List Char) → List (List Char)
  | [], acc, out => out ++ [acc.reverse]
  | '\r' :: '\n' :: rest, acc, out => splitLinesAux rest [] (out ++ [acc.reverse])
  | '\n' :: rest, acc, out => splitLinesAux rest [] (out ++ [acc.reverse])
  | c :: rest, acc, out => splitLinesAux rest (c :: acc) out

/-- The line list of a diff text, as the source computes it. -/
def splitLines (s : String) : List (List Char) :=
  splitLinesAux s.data [] []

/-! ## SHA-1, base64url and `stableHash`

`stableHash(input) = createHash('sha1').update(input).digest('base64url').slice(0, 12)`.
-/

/-- 32-bit left rotation. -/
def rotl32 (n x : Nat) : Nat :=
  (x <<< n) % 4294967296 ||| (x >>> (32 - n))

/-- UTF-8 bytes of one character. -/
def utf8Bytes (c : Char) : List Nat :=
  let n := c.toNat
  if n < 128 then [n]
  else if n < 2048 then [192 + n >>> 6, 128 + (n &&& 63)]
  else if n < 65536 then
    [224 + n >>> 12, 128 + ((n >>> 6) &&& 63), 128 + (n &&& 63)]
  else
    [240 + n >>> 18, 128 + ((n >>> 12) &&& 63),
      128 + ((n >>> 6) &&& 63), 128 + (n &&& 63)]

/-- UTF-8 encoding of a string. -/
def utf8Encode (s : String) : List Nat :=
  s.data.flatMap utf8Bytes

/-- Big-endian bytes of a 64-bit length value. -/
def be64 (n : Nat) : List Nat :=
  [n >>> 56 % 256, n >>> 48 % 256, n >>> 40 % 256, n >>> 32 % 256,
    n >>> 24 % 256, n >>> 16 % 256, n >>> 8 % 256, n % 256]

/-- SHA-1 padding: `0x80`, zeros to 56 mod 64, then the bit length. -/
def sha1Pad (msg : List Nat) : List Nat :=
  let len := msg.length
  let zeros := (119 - len % 64) % 64
  msg ++ [128] ++ List.replicate zeros 0 ++ be64 (len * 8)

/-- Group bytes into big-endian 32-bit words. -/
def bytesToWords : List Nat → List Nat
  | b0 :: b1 :: b2 :: b3 :: rest =>
    (b0 <<< 24 ||| b1 <<< 16 ||| b2 <<< 8 ||| b3) :: bytesToWords rest
  | _ => []

/-- Split a byte list into 64-byte blocks (structural accumulator
formulation so that kernel reduction can evaluate it). -/
def chunks64Aux : List Nat → List Nat → List (List Nat)
  | [], acc => if acc.isEmpty then [] else [acc.reverse]
  | b :: rest, acc =>
    if acc.length == 63 then (acc.reverse ++ [b]) :: chunks64Aux rest []
    else chunks64Aux rest (b :: acc)

/-- Split a byte list into 64-byte blocks. -/
def chunks64 (bs : List Nat) : List (List Nat) :=
  chunks64Aux bs []

/-- Extend 16 message words to the 80 SHA-1 schedule words. -/
def sha1Schedule (ws : List Nat) : List Nat :=
  (List.range 64).foldl
    (fun acc _ =>
      let n := acc.length
      acc ++ [rotl32 1 (acc.getD (n - 3) 0 ^^^ acc.getD (n - 8) 0 ^^^
        acc.getD (n - 14) 0 ^^^ acc.getD (n - 16) 0)])
    ws

/-- One SHA-1 round. -/
def sha1Round (st : Nat × Nat × Nat × Nat × Nat) (iw : Nat × Nat) :
    Nat × Nat × Nat × Nat × Nat :=
  let (a, b, c, d, e) := st
  let (i, w) := iw
  let f :=
    if i < 20 then (b &&& c) ||| ((b ^^^ 4294967295) &&& d)
    else if i < 40 then b ^^^ c ^^^ d
    else if i < 60 then (b &&& c) ||| (b &&& d) ||| (c &&& d)
    else b ^^^ c ^^^ d
  let k :=
    if i < 20 then 1518500249
    else if i < 40 then 1859775393
    else if i < 60 then 2400959708
    else 3395469782
  let temp := (rotl32 5 a + f + e + k + w) % 4294967296
  (temp, a, rotl32 30 b, c, d)

/-- Compress one 64-byte block into the running state. -/
def sha1Block (h : Nat × Nat × Nat × Nat × Nat) (block : List Nat) :
    Nat × Nat × Nat × Nat × Nat :=
  let ws := sha1Schedule (bytesToWords block)
  let (a, b, c, d, e) := ws.enum.foldl sha1Round h
  let (h0, h1, h2, h3, h4) := h
  ((h0 + a) % 4294967296, (h1 + b) % 4294967296, (h2 + c) % 4294967296,
    (h3 + d) % 4294967296, (h4 + e) % 4294967296)

/-- Big-endian bytes of a 32-bit word. -/
def wordBytes (w : Nat) : List Nat :=
  [w >>> 24 % 256, w >>> 16 % 256, w >>> 8 % 256, w % 256]

/-- SHA-1 digest (20 bytes) of a byte list. -/
def sha1 (msg : List Nat) : List Nat :=
  let (h0, h1, h2, h3, h4) :=
    (chunks64 (sha1Pad msg)).foldl sha1Block
      (1732584193, 4023233417, 2562383102, 271733878, 3285377520)
  wordBytes h0 ++ wordBytes h1 ++ wordBytes h2 ++ wordBytes h3 ++ wordBytes h4

/-- The base64url alphabet. -/
def b64Alphabet : List Char :=
  "ABCDEFGHIJKLMNOPQRSTUVWXYZabcdefghijklmnopqrstuvwxyz0123456789-_".data

/-- One base64url symbol. -/
def b64Char (n : Nat) : Char := b64Alphabet.getD n 'A'

/-- Unpadded base64url encoding of a byte list (Node's `base64url`). -/
def b64url : List Nat → List Char
  | b0 :: b1 :: b2 :: rest =>
    b64Char (b0 >>> 2) :: b64Char ((b0 &&& 3) <<< 4 ||| b1 >>> 4) ::
      b64Char ((b1 &&& 15) <<< 2 ||| b2 >>> 6) :: b64Char (b2 &&& 63) ::
      b64url rest
  | [b0, b1] =>
    [b64Char (b0 >>> 2), b64Char ((b0 &&& 3) <<< 4 ||| b1 >>> 4),
      b64Char ((b1 &&& 15) <<< 2)]
  | [b0] => [b64Char (b0 >>> 2), b64Char ((b0 &&& 3) <<< 4)]
  | [] => []

/-- `stableHash`: first 12 base64url characters of the SHA-1 of the input. -/
def stableHash (input : String) : String :=
  String.mk ((b64url (sha1 (utf8Encode input))).take 12)

/-! ## Data model (`diff-schemas`, re-declared in `markdown-to-html.ts`) -/

/-- `FileStatus` union. -/
inductive FileStatus
  | added | modified | deleted | renamed | copied
  | modeChanged | typeChanged | unmerged | unknown
deriving DecidableEq, BEq, Repr

/-- The status literal as it appears in the id hash input. -/
def statusString : FileStatus → String
  | .added => "added"
  | .modified => "modified"
  | .deleted => "deleted"
  | .renamed => "renamed"
  | .copied => "copied"
  | .modeChanged => "modeChanged"
  | .typeChanged => "typeChanged"
  | .unmerged => "unmerged"
  | .unknown => "unknown"

/-- `LineOp` union. -/
inductive LineOp
  | context | add | del
deriving DecidableEq, BEq, Repr

/-- `HunkLine`. `oldNumber`/`newNumber` are `number | null`; the optional
`noNewlineAtEndOfFile` boolean is embedded as `Bool` (absent = `false`,
matching the `Boolean(...)` coercions in the source). -/
structure HunkLine where
  id : String
  op : LineOp
  text : String
  oldNumber : Option Nat
  newNumber : Option Nat
  noNewlineAtEndOfFile : Bool
deriving DecidableEq, Repr

/-- The `context` attachment the Context Enricher adds to a hunk. -/
structure ContextAttachment where
  radius : Nat
  before : Option (List String)
  after : Option (List String)
deriving DecidableEq, Repr

/-- `HunkAttachments`. -/
structure HunkAttachments where
  context : Option ContextAttachment
deriving DecidableEq, Repr

/-- `Hunk`. `rawHeader?: string` is embedded as `String` with `""` for
absent (both are falsy where the source tests it). -/
structure Hunk where
  id : String
  oldStart : Nat
  oldLines : Nat
  newStart : Nat
  newLines : Nat
  contentHash : Option String
  sectionHeading : Option String
  lines : List HunkLine
  rawHeader : String
  attachments : Option HunkAttachments
deriving DecidableEq, Repr

/-- A blob reference inside `FileDiff.attachments.blobs`. -/
structure BlobRef where
  oid : String
deriving DecidableEq, Repr

/-- `attachments.blobs` of a file. -/
structure FileBlobs where
  before : Option BlobRef
  after : Option BlobRef
deriving DecidableEq, Repr

/-- `FileDiff.attachments`. -/
structure FileAttachments where
  blobs : Option FileBlobs
deriving DecidableEq, Repr

/-- Per-file stats. -/
structure FileStats where
  additions : Nat
  deletions : Nat
  hunks : Nat
deriving DecidableEq, Repr

/-- `FileDiff`. -/
structure FileDiff where
  id : String
  pathOld : Option String
  pathNew : Option String
  status : FileStatus
  isBinary : Bool
  language : Option String
  similarityIndex : Option Nat
  modeBefore : Option String
  modeAfter : Option String
  stats : FileStats
  hunks : List Hunk
  rawPatch : String
  attachments : Option FileAttachments
deriving DecidableEq, Repr

/-- Document totals. -/
structure Totals where
  filesChanged : Nat
  additions : Nat
  deletions : Nat
  hunks : Nat
  binaryFilesChanged : Nat
deriving DecidableEq, Repr

/-- The record `parseUnifiedDiff` returns. -/
structure ParseResult where
  files : List FileDiff
  totals : Totals
  warnings : List String
deriving DecidableEq, Repr

/-! ## Line classification -/

/-- `line.startsWith(p)` on a character-list line. -/
def hasPfx (p : String) (l : List Char) : Bool :=
  p.data.isPrefixOf l

/-- The standalone `\ No newline at end of file` marker line. -/
def noNewlineMarker : List Char :=
  "\\ No newline at end of file".data

/-- `line.startsWith('diff --git ')`. -/
def isDiffGit (l : List Char) : Bool :=
  hasPfx "diff --git " l

/-- The conditions on which the inner hunk-line loop breaks. -/
def isHunkBreak (l : List Char) : Bool :=
  isDiffGit l || hasPfx "@@ " l || hasPfx "index " l ||
  hasPfx "Binary files " l || hasPfx "GIT binary patch" l

/-! ## Regular-expression matchers

Each regex of the source is embedded as a deterministic maximal-munch
matcher; in every use the token following a greedy class cannot begin
the class, so no backtracking of the original engine is lost.
-/

/-- Numeric value of a nonempty digit run. -/
def digitsToNat (ds : List Char) : Nat :=
  ds.foldl (fun acc c => acc * 10 + (c.toNat - 48)) 0

/-- `([0-9]+)(?:,([0-9]+))?`: a required number, an optional
comma-number; a comma not followed by digits fails the whole match
(exactly as the anchored original does after backtracking). -/
def numWithOptCount (l : List Char) : Option (Nat × Option Nat × List Char) :=
  match l.span Char.isDigit with
  | ([], _) => none
  | (ds, rest) =>
    match rest with
    | ',' :: r2 =>
      match r2.span Char.isDigit with
      | ([], _) => none
      | (ds2, r3) => some (digitsToNat ds, some (digitsToNat ds2), r3)
    | _ => some (digitsToNat ds, none, rest)

/-- The captures of the hunk-header regex
`^@@\s+-([0-9]+)(?:,([0-9]+))?\s+\+([0-9]+)(?:,([0-9]+))?\s+@@(.*)$`. -/
structure HunkHdrMatch where
  oldStart : Nat
  oldCountOpt : Option Nat
  newStart : Nat
  newCountOpt : Option Nat
  heading : List Char
deriving DecidableEq, Repr

/-- Characters the final `(.*)$` group can never take, making the whole
regex fail when they occur after the closing `@@`. -/
def jsDotFails (c : Char) : Bool :=
  c == '\r' || c == '\u2028' || c == '\u2029'

/-- Match the hunk-header regex. -/
def matchHunkHeader (l : List Char) : Option HunkHdrMatch :=
  match l with
  | '@' :: '@' :: r0 =>
    match r0.span jsWs with
    | ([], _) => none
    | (_ :: _, '-' :: r1) =>
      match numWithOptCount r1 with
      | none => none
      | some (os, oc, r2) =>
        match r2.span jsWs with
        | ([], _) => none
        | (_ :: _, '+' :: r3) =>
          match numWithOptCount r3 with
          | none => none
          | some (ns, nc, r4) =>
            match r4.span jsWs with
            | ([], _) => none
            | (_ :: _, '@' :: '@' :: heading) =>
              if heading.any jsDotFails then none
              else some ⟨os, oc, ns, nc, heading⟩
            | _ => none
        | _ => none
    | _ => none
  | _ => none

/-- Hexadecimal character class `[0-9a-fA-F]`. -/
def isHexChar (c : Char) : Bool :=
  c.isDigit || ('a' ≤ c && c ≤ 'f') || ('A' ≤ c && c ≤ 'F')

/-- Octal digit class `[0-7]`. -/
def isOctalChar (c : Char) : Bool :=
  '0' ≤ c && c ≤ '7'

/-- The optional `(?:\s+([0-7]{6}))?` tail of the index-line regex. -/
def matchOptMode (r : List Char) : Option String :=
  match r.span jsWs with
  | ([], _) => none
  | (_ :: _, rest) =>
    let six := rest.take 6
    if six.length == 6 && six.all isOctalChar then some (String.mk six) else none

/-- Match `^index\s+([0-9a-fA-F]+)\.\.([0-9a-fA-F]+)(?:\s+([0-7]{6}))?`. -/
def matchIndexLine (l : List Char) : Option (String × String × Option String) :=
  match l with
  | 'i' :: 'n' :: 'd' :: 'e' :: 'x' :: r0 =>
    match r0.span jsWs with
    | ([], _) => none
    | (_ :: _, r1) =>
      match r1.span isHexChar with
      | ([], _) => none
      | (h1, '.' :: '.' :: r2) =>
        match r2.span isHexChar with
        | ([], _) => none
        | (h2, r3) => some (String.mk h1, String.mk h2, matchOptMode r3)
      | _ => none
  | _ => none

/-- Match `/\s([0-7]{6})$/`: the line ends in a whitespace character
followed by exactly six octal digits. -/
def matchModeTail (l : List Char) : Option String :=
  let r := l.reverse
  let six := r.take 6
  if six.length == 6 && six.all isOctalChar then
    match r.drop 6 with
    | c :: _ => if jsWs c then some (String.mk six.reverse) else none
    | [] => none
  else none

/-- Try `/similarity index\s+(\d+)%/` anchored at the current position. -/
def matchSimAt (l : List Char) : Option Nat :=
  if hasPfx "similarity index" l then
    match (l.drop 16).span jsWs with
    | ([], _) => none
    | (_ :: _, rest) =>
      match rest.span Char.isDigit with
      | ([], _) => none
      | (ds, '%' :: _) => some (digitsToNat ds)
      | _ => none
  else none

/-- The unanchored search of `/similarity index\s+(\d+)%/`. -/
def findSimilarity : List Char → Option Nat
  | [] => none
  | c :: rest =>
    match matchSimAt (c :: rest) with
    | some n => some n
    | none => findSimilarity rest

/-! ## node's `path.extname` and the language hint -/

/-- Extension body after `extname` + `replace(/^\./, '')`: the part of
the basename after its last `.`, empty when the dot is leading or
missing. -/
def extChars (path : List Char) : List Char :=
  let base := (path.reverse.takeWhile (fun c => !(c == '/'))).reverse
  match base.reverse.span (fun c => !(c == '.')) with
  | (revSuffix, '.' :: revPre) => if revPre.isEmpty then [] else revSuffix.reverse
  | _ => []

/-- `languageFromPath`. -/
def languageFromPath (path : Option String) : Option String :=
  match path with
  | none => none
  | some p =>
    if p == "" then none
    else
      let e := (extChars p.data).map Char.toLower
      if e.isEmpty then none else some (String.mk e)

/-! ## Status classifier -/

/-- `inferStatus`. -/
def inferStatus (sawRenameFrom sawCopyFrom : Bool)
    (oldPath newPath : Option String) : FileStatus :=
  if sawRenameFrom then .renamed
  else if sawCopyFrom then .copied
  else if oldPath = some "/dev/null" then .added
  else if newPath = some "/dev/null" then .deleted
  else .modified

/-! ## The parser state

The source keeps one mutable `current` record and one mutable hunk; the
embedding threads them explicitly.  `rawLinesRev`/`hunksRev` hold the
pushed elements most-recent first and are reversed at finalize time; the
hunk under construction lives in `Pending` (its `linesRev` likewise) and
is appended to `hunksRev` exactly when the inner line loop of the source
exits.
-/

/-- The in-progress file record `current`. -/
structure CurFile where
  headerLines : List (List Char)
  rawLinesRev : List (List Char)
  hunksRev : List Hunk
  additions : Nat
  deletions : Nat
  pathOld : Option String
  pathNew : Option String
  modeBefore : Option String
  modeAfter : Option String
  isBinary : Bool
  sawRenameFrom : Bool
  sawCopyFrom : Bool
  similarityIndex : Option Nat
  oldOid : Option String
  newOid : Option String
deriving DecidableEq, Repr

/-- The fresh record built at a `diff --git ` line. -/
def newCur (l : List Char) : CurFile :=
  { headerLines := [l], rawLinesRev := [l], hunksRev := [], additions := 0,
    deletions := 0, pathOld := none, pathNew := none, modeBefore := none,
    modeAfter := none, isBinary := false, sawRenameFrom := false,
    sawCopyFrom := false, similarityIndex := none, oldOid := none,
    newOid := none }

/-- The hunk being built, with the two running line counters. -/
structure Pending where
  hunk : Hunk
  linesRev : List HunkLine
  oldNum : Nat
  newNum : Nat
deriving DecidableEq, Repr

/-- Finish the in-progress hunk (the source pushed it before the loop
and mutated its `lines` in place). -/
def attachPending (cur : CurFile) (p : Pending) : CurFile :=
  { cur with hunksRev := { p.hunk with lines := p.linesRev.reverse } :: cur.hunksRev }

/-- Build a `Hunk` from the header captures (id computation included). -/
def mkHunk (pathOld pathNew : Option String) (hunkIndex : Nat)
    (m : HunkHdrMatch) (raw : List Char) : Hunk :=
  let oldLines := m.oldCountOpt.getD 1
  let newLines := m.newCountOpt.getD 1
  let trimmed := jsTrimChars m.heading
  let sectionHeading : Option String :=
    if trimmed.isEmpty then none else some (String.mk trimmed)
  let fileIdSeed := String.intercalate "|"
    [pathOld.getD "", pathNew.getD "", toString hunkIndex]
  let hunkId := stableHash (String.intercalate "|"
    [fileIdSeed, toString m.oldStart, toString oldLines, toString m.newStart,
      toString newLines, sectionHeading.getD "", toString hunkIndex])
  { id := hunkId, oldStart := m.oldStart, oldLines := oldLines,
    newStart := m.newStart, newLines := newLines, contentHash := none,
    sectionHeading := sectionHeading, lines := [], rawHeader := String.mk raw,
    attachments := none }

/-- Set the no-newline flag on the most recently pushed line. -/
def setHeadNoNewline : List HunkLine → List HunkLine
  | [] => []
  | e :: t => { e with noNewlineAtEndOfFile := true } :: t

/-- One iteration of the inner hunk-line loop on a non-break line:
marker handling, the prefix switch, the counters, and the per-file
addition/deletion counts. -/
def hunkBodyStep (l : List Char) (p : Pending) (adds dels : Nat) :
    Pending × Nat × Nat :=
  if l = noNewlineMarker then
    ({ p with linesRev := setHeadNoNewline p.linesRev }, adds, dels)
  else
    let text := String.mk l.tail
    let lineId := toString (p.linesRev.length + 1)
    match l.head? with
    | some ' ' =>
      ({ p with
          linesRev := ⟨lineId, .context, text, some p.oldNum, some p.newNum, false⟩ :: p.linesRev,
          oldNum := p.oldNum + 1, newNum := p.newNum + 1 }, adds, dels)
    | some '+' =>
      ({ p with
          linesRev := ⟨lineId, .add, text, none, some p.newNum, false⟩ :: p.linesRev,
          newNum := p.newNum + 1 }, adds + 1, dels)
    | some '-' =>
      ({ p with
          linesRev := ⟨lineId, .del, text, some p.oldNum, none, false⟩ :: p.linesRev,
          oldNum := p.oldNum + 1 }, adds, dels + 1)
    | _ =>
      ({ p with linesRev := ⟨lineId, .context, text, none, none, false⟩ :: p.linesRev },
        adds, dels)

/-- Apply an `index …` line to the current record. -/
def applyIndex (cur : CurFile) (l : List Char) : CurFile :=
  match matchIndexLine l with
  | some (h1, h2, mode) =>
    { cur with
        oldOid := some h1, newOid := some h2,
        modeAfter := (match mode with | some m => some m | none => cur.modeAfter) }
  | none =>
    match matchModeTail l with
    | some m => { cur with modeAfter := some m }
    | none => cur

/-- `current.rawLines.push(line)`. -/
def pushRawLine (l : List Char) (c : CurFile) : CurFile :=
  { c with rawLinesRev := l :: c.rawLinesRev }

/-- `old mode ` branch. -/
def applyOldMode (c : CurFile) (l : List Char) : CurFile :=
  { c with modeBefore := some (String.mk (jsTrimChars (l.drop 9))) }

/-- `new mode ` branch. -/
def applyNewMode (c : CurFile) (l : List Char) : CurFile :=
  { c with modeAfter := some (String.mk (jsTrimChars (l.drop 9))) }

/-- `similarity index ` branch. -/
def applySimilarity (c : CurFile) (l : List Char) : CurFile :=
  match findSimilarity l with
  | some n => { c with similarityIndex := some n }
  | none => c

/-- `rename from ` branch. -/
def applyRenameFrom (c : CurFile) (l : List Char) : CurFile :=
  { c with
      sawRenameFrom := true,
      pathOld := some (String.mk (jsTrimChars (l.drop 12))) }

/-- `rename to ` branch. -/
def applyRenameTo (c : CurFile) (l : List Char) : CurFile :=
  { c with pathNew := some (String.mk (jsTrimChars (l.drop 10))) }

/-- `copy from ` branch. -/
def applyCopyFrom (c : CurFile) (l : List Char) : CurFile :=
  { c with
      sawCopyFrom := true,
      pathOld := some (String.mk (jsTrimChars (l.drop 10))) }

/-- `copy to ` branch. -/
def applyCopyTo (c : CurFile) (l : List Char) : CurFile :=
  { c with pathNew := some (String.mk (jsTrimChars (l.drop 8))) }

/-- `--- ` path announcement branch. -/
def applyPathOld (c : CurFile) (l : List Char) : CurFile :=
  { c with pathOld := some (String.mk (jsTrimChars (l.drop 4))) }

/-- `+++ ` path announcement branch. -/
def applyPathNew (c : CurFile) (l : List Char) : CurFile :=
  { c with pathNew := some (String.mk (jsTrimChars (l.drop 4))) }

/-- Binary marker branch. -/
def applyBinary (c : CurFile) : CurFile :=
  { c with isBinary := true }

/-- Hunk creation on a matched header: the hunk record plus the fresh
inner-loop state (`oldNum = oldStart`, `newNum = newStart`). -/
def startHunk (c : CurFile) (m : HunkHdrMatch) (l : List Char) : CurFile × Pending :=
  (c, { hunk := mkHunk c.pathOld c.pathNew c.hunksRev.length m l,
        linesRev := [], oldNum := m.oldStart, newNum := m.newStart })

/-- `line.startsWith('Binary files ') || line === 'GIT binary patch'`. -/
def isBinaryMarker (l : List Char) : Bool :=
  hasPfx "Binary files " l || l == "GIT binary patch".data

/-- The branch of the outer-loop metadata ladder a line selects,
tested in the source's order. -/
inductive TopKind
  | indexLine | oldMode | newMode | similarity | renameFrom | renameTo
  | copyFrom | copyTo | pathOldLine | pathNewLine | binary
  | hunkHdr (m : HunkHdrMatch) | other
deriving DecidableEq, Repr

/-- The if-ladder of the outer loop. -/
def classifyTop (l : List Char) : TopKind :=
  if hasPfx "index " l then .indexLine
  else if hasPfx "old mode " l then .oldMode
  else if hasPfx "new mode " l then .newMode
  else if hasPfx "similarity index " l then .similarity
  else if hasPfx "rename from " l then .renameFrom
  else if hasPfx "rename to " l then .renameTo
  else if hasPfx "copy from " l then .copyFrom
  else if hasPfx "copy to " l then .copyTo
  else if hasPfx "--- " l then .pathOldLine
  else if hasPfx "+++ " l then .pathNewLine
  else if isBinaryMarker l then .binary
  else
    match matchHunkHeader l with
    | some m => .hunkHdr m
    | none => .other

/-- One iteration of the outer loop on a line other than `diff --git `
while a file is open: the raw-line push, the metadata ladder, and the
hunk-header match (whose success starts the inner loop). -/
def topStep (l : List Char) (cur0 : CurFile) : CurFile ⊕ (CurFile × Pending) :=
  match classifyTop l with
  | .indexLine => .inl (applyIndex (pushRawLine l cur0) l)
  | .oldMode => .inl (applyOldMode (pushRawLine l cur0) l)
  | .newMode => .inl (applyNewMode (pushRawLine l cur0) l)
  | .similarity => .inl (applySimilarity (pushRawLine l cur0) l)
  | .renameFrom => .inl (applyRenameFrom (pushRawLine l cur0) l)
  | .renameTo => .inl (applyRenameTo (pushRawLine l cur0) l)
  | .copyFrom => .inl (applyCopyFrom (pushRawLine l cur0) l)
  | .copyTo => .inl (applyCopyTo (pushRawLine l cur0) l)
  | .pathOldLine => .inl (applyPathOld (pushRawLine l cur0) l)
  | .pathNewLine => .inl (applyPathNew (pushRawLine l cur0) l)
  | .binary => .inl (applyBinary (pushRawLine l cur0))
  | .hunkHdr m => .inr (startHunk (pushRawLine l cur0) m l)
  | .other => .inl (pushRawLine l cur0)

/-- `finalizeCurrent`: classify, compute the file id, and assemble the
`FileDiff`. -/
def mkFile (seed : String) (cur : CurFile) : FileDiff :=
  let status := inferStatus cur.sawRenameFrom cur.sawCopyFrom cur.pathOld cur.pathNew
  let fileId := stableHash (String.intercalate "|"
    [seed, cur.pathOld.getD "", cur.pathNew.getD "", statusString status,
      cur.modeBefore.getD "", cur.modeAfter.getD ""])
  { id := fileId
    pathOld := cur.pathOld
    pathNew := cur.pathNew
    status := status
    isBinary := cur.isBinary
    language := languageFromPath (jsOr cur.pathNew cur.pathOld)
    similarityIndex := cur.similarityIndex
    modeBefore := cur.modeBefore
    modeAfter := cur.modeAfter
    stats := ⟨cur.additions, cur.deletions, cur.hunksRev.length⟩
    hunks := cur.hunksRev.reverse
    rawPatch := String.intercalate "\n" (cur.rawLinesRev.reverse.map String.mk)
    attachments :=
      if jsTruthy cur.oldOid || jsTruthy cur.newOid then
        some ⟨some ⟨(if jsTruthy cur.oldOid then cur.oldOid.map BlobRef.mk else none),
          (if jsTruthy cur.newOid then cur.newOid.map BlobRef.mk else none)⟩⟩
      else none }

/-- The combined loop state: no open file, an open file at the top of
the outer loop, or an open file inside the inner hunk-line loop. -/
inductive PState
  | noFile
  | top (cur : CurFile)
  | inHunk (cur : CurFile) (p : Pending)
deriving Repr

/-- Files emitted by the `finalizeCurrent()` call after the loop. -/
def finalFiles (seed : String) : PState → List FileDiff
  | .noFile => []
  | .top cur => [mkFile seed cur]
  | .inHunk cur p => [mkFile seed (attachPending cur p)]

/-- The whole line loop of `parseUnifiedDiff`.  A break line seen
inside a hunk ends the pending hunk and is re-dispatched exactly as the
outer loop of the source re-examines it. -/
def parseLines (seed : String) : List (List Char) → PState → List FileDiff → List FileDiff
  | [], st, acc => acc ++ finalFiles seed st
  | l :: rest, .noFile, acc =>
    if isDiffGit l then parseLines seed rest (.top (newCur l)) acc
    else parseLines seed rest .noFile acc
  | l :: rest, .top cur, acc =>
    if isDiffGit l then
      parseLines seed rest (.top (newCur l)) (acc ++ [mkFile seed cur])
    else
      match topStep l cur with
      | .inl cur' => parseLines seed rest (.top cur') acc
      | .inr (cur', p) => parseLines seed rest (.inHunk cur' p) acc
  | l :: rest, .inHunk cur p, acc =>
    if isHunkBreak l then
      let cur₁ := attachPending cur p
      if isDiffGit l then
        parseLines seed rest (.top (newCur l)) (acc ++ [mkFile seed cur₁])
      else
        match topStep l cur₁ with
        | .inl cur' => parseLines seed rest (.top cur') acc
        | .inr (cur'', p') => parseLines seed rest (.inHunk cur'' p') acc
    else
      let (p', adds, dels) := hunkBodyStep l p cur.additions cur.deletions
      parseLines seed rest (.inHunk { cur with additions := adds, deletions := dels } p') acc

/-- The totals pass at the end of `parseUnifiedDiff`. -/
def computeTotals (files : List FileDiff) : Totals :=
  let s := files.foldl
    (fun (acc : Nat × Nat × Nat × Nat) f =>
      (acc.1 + f.stats.additions, acc.2.1 + f.stats.deletions,
        acc.2.2.1 + f.hunks.length, acc.2.2.2 + (if f.isBinary then 1 else 0)))
    (0, 0, 0, 0)
  { filesChanged := files.length, additions := s.1, deletions := s.2.1,
    hunks := s.2.2.1, binaryFilesChanged := s.2.2.2 }

/-- `ParseOptions`. -/
structure ParseOptions where
  fileIdSeed : Option String
deriving Repr

/-- `parseUnifiedDiff(diffText, options)`. -/
def parseUnifiedDiffWith (options : ParseOptions) (diffText : String) : ParseResult :=
  let files := parseLines (options.fileIdSeed.getD "") (splitLines diffText) .noFile []
  { files := files, totals := computeTotals files, warnings := [] }

/-- `parseUnifiedDiff(diffText)` with default options, as the CLI calls it. -/
def parseUnifiedDiff (diffText : String) : ParseResult :=
  parseUnifiedDiffWith ⟨none⟩ diffText

/-! ## The equivalence-verifier tokenizers -/

/-- A token of the verifier's flat streams. -/
inductive HunkToken
  | header (header : String)
  | line (op : LineOp) (text : String) (noNewline : Bool)
deriving DecidableEq, BEq, Repr

/-- The line kind selected by the leading character. -/
def opOfChar (c : Char) : LineOp :=
  if c == ' ' then .context else if c == '+' then .add else .del

/-- `tokenizeRawDiffHunks` over the split lines: `@@ `-lines become
header tokens, prefixed lines (other than the path announcements)
become line tokens with one line of lookahead for the no-newline
marker, everything else is skipped. -/
def tokenizeRawLines : List (List Char) → List HunkToken
  | [] => []
  | [l] =>
    if hasPfx "@@ " l then [.header (String.mk l)]
    else
      match l with
      | [] => []
      | c :: _ =>
        if (c == ' ' || c == '+' || c == '-') &&
            !(hasPfx "--- " l || hasPfx "+++ " l) then
          [.line (opOfChar c) (String.mk l.tail) false]
        else []
  | l :: m :: rest =>
    if hasPfx "@@ " l then .header (String.mk l) :: tokenizeRawLines (m :: rest)
    else
      match l with
      | [] => tokenizeRawLines (m :: rest)
      | c :: _ =>
        if c == ' ' || c == '+' || c == '-' then
          if hasPfx "--- " l || hasPfx "+++ " l then tokenizeRawLines (m :: rest)
          else if m = noNewlineMarker then
            .line (opOfChar c) (String.mk l.tail) true :: tokenizeRawLines rest
          else
            .line (opOfChar c) (String.mk l.tail) false :: tokenizeRawLines (m :: rest)
        else tokenizeRawLines (m :: rest)

/-- `tokenizeRawDiffHunks` on the raw text. -/
def tokenizeRawDiffHunks (raw : String) : List HunkToken :=
  tokenizeRawLines (splitLines raw)

/-- The header token of one hunk: the raw header when truthy, else the
reconstruction from the range numbers (a zero count is falsy and drops
its comma segment). -/
def hunkHeaderToken (h : Hunk) : HunkToken :=
  if h.rawHeader == "" then
    .header ("@@ -" ++ toString h.oldStart ++
      (if h.oldLines == 0 then "" else "," ++ toString h.oldLines) ++
      " +" ++ toString h.newStart ++
      (if h.newLines == 0 then "" else "," ++ toString h.newLines) ++ " @@")
  else .header h.rawHeader

/-- `tokenizeBasicHunks` over the files of the structured document. -/
def tokenizeBasicHunks (files : List FileDiff) : List HunkToken :=
  files.flatMap fun f => f.hunks.flatMap fun h =>
    hunkHeaderToken h :: h.lines.map fun e =>
      .line e.op e.text e.noNewlineAtEndOfFile

/-- The tolerance loop of the verifier: pop trailing empty context
line tokens from a stream. -/
def isEmptyContextToken : HunkToken → Bool
  | .line op text _ => op == .context && text == ""
  | _ => false

/-- Drop trailing empty context tokens. -/
def dropTrailingEmptyContext (ts : List HunkToken) : List HunkToken :=
  (ts.reverse.dropWhile isEmptyContextToken).reverse

/-! ## Context Enricher

`enrichHunksWithContext` performs I/O through `git show` and the
working tree; the embedding abstracts those reads as total functions
returning `Option String` (`none` = the read failed), which is exactly
the strength the `try … catch`es of the source give them.
-/

/-- The content-lookup collaborators of §6. -/
structure ContentOracles where
  blob : String → Option String
  atRef : String → String → Option String
  workTree : String → Option String

/-- The base/head revisions handed to the enricher. -/
structure GitRefs where
  baseRef : Option String
  headRef : Option String
deriving Repr

/-- `replace(/\r\n/g, '\n')` applied to fetched content. -/
def replCRLF : List Char → List Char
  | '\r' :: '\n' :: rest => '\n' :: replCRLF rest
  | c :: rest => c :: replCRLF rest
  | [] => []

/-- Newline normalization of fetched content. -/
def normNewlines (s : String) : String := String.mk (replCRLF s.data)

/-- `stripABPrefix` of the source (renamed): drop `a/`/`b/` and map the
null device and missing paths to `undefined`. -/
def stripABPfx (path : Option String) : Option String :=
  match path with
  | none => none
  | some p =>
    if p == "" then none
    else if p == "/dev/null" then none
    else if hasPfx "a/" p.data then some (String.mk (p.data.drop 2))
    else if hasPfx "b/" p.data then some (String.mk (p.data.drop 2))
    else some p

/-- `content.split('\n')` (no `\r\n` handling here, the fetchers
already normalized). -/
def splitNlAux : List Char → List Char → List String → List String
  | [], acc, out => out ++ [String.mk acc.reverse]
  | '\n' :: rest, acc, out => splitNlAux rest [] (out ++ [String.mk acc.reverse])
  | c :: rest, acc, out => splitNlAux rest (c :: acc) out

/-- Split content into lines at `'\n'`. -/
def splitNl (s : String) : List String := splitNlAux s.data [] []

/-- JavaScript `Array.prototype.slice(s, e)` with signed indices. -/
def jsSlice (arr : List String) (s e : Int) : List String :=
  let len : Int := arr.length
  let s' := if s < 0 then max 0 (len + s) else min s len
  let e' := if e < 0 then max 0 (len + e) else min e len
  (arr.drop s'.toNat).take (e'.toNat - s'.toNat)

/-- `sliceContextLines`. -/
def sliceContextLines (content : Option String) (startLine numLines radius : Nat) :
    Option (List String) :=
  match content with
  | none => none
  | some c =>
    let all := splitNl c
    let startIdx : Int := max 0 ((startLine : Int) - 1 - (radius : Int))
    let endIdx : Int := min (all.length : Int) ((startLine : Int) - 1 + numLines + radius)
    some (jsSlice all startIdx endIdx)

/-- Resolve before/after whole-file content for one file: blob oids
first (one shared `try`), then the explicit revisions, then the working
tree for the after side; every failure leaves the previous value. -/
def resolveContents (file : FileDiff) (refs : GitRefs) (o : ContentOracles) :
    Option String × Option String :=
  let oldRel := stripABPfx file.pathOld
  let newRel := stripABPfx file.pathNew
  let beforeOid := ((file.attachments.bind (·.blobs)).bind (·.before)).map (·.oid)
  let afterOid := ((file.attachments.bind (·.blobs)).bind (·.after)).map (·.oid)
  let (b0, a0) :=
    if jsTruthy beforeOid then
      match beforeOid.bind o.blob with
      | some c =>
        (some (normNewlines c),
          if jsTruthy afterOid then (afterOid.bind o.blob).map normNewlines else none)
      | none => (none, none)
    else
      (none, if jsTruthy afterOid then (afterOid.bind o.blob).map normNewlines else none)
  let b1 :=
    if !(jsTruthy b0) && jsTruthy refs.baseRef && jsTruthy oldRel then
      match refs.baseRef, oldRel with
      | some br, some orl =>
        match o.atRef br orl with
        | some c => some (normNewlines c)
        | none => b0
      | _, _ => b0
    else b0
  let a1 :=
    if !(jsTruthy a0) && jsTruthy refs.headRef && jsTruthy newRel then
      match refs.headRef, newRel with
      | some hr, some nrl =>
        match o.atRef hr nrl with
        | some c => some (normNewlines c)
        | none => a0
      | _, _ => a0
    else a0
  let a2 :=
    if !(jsTruthy a1) && jsTruthy newRel then
      match newRel with
      | some nrl =>
        match o.workTree nrl with
        | some c => some (normNewlines c)
        | none => a1
      | none => a1
    else a1
  (b1, a2)

/-- Attach the context slices to one hunk when either side resolved. -/
def enrichHunk (radius : Nat) (beforeContent afterContent : Option String)
    (h : Hunk) : Hunk :=
  let before := sliceContextLines beforeContent h.oldStart h.oldLines radius
  let after := sliceContextLines afterContent h.newStart h.newLines radius
  if before.isSome || after.isSome then
    { h with attachments := some ⟨some ⟨radius, before, after⟩⟩ }
  else h

/-- Per-file enrichment: binary files are skipped untouched. -/
def enrichFile (radius : Nat) (refs : GitRefs) (o : ContentOracles)
    (f : FileDiff) : FileDiff :=
  if f.isBinary then f
  else
    let (b, a) := resolveContents f refs o
    { f with hunks := f.hunks.map (enrichHunk radius b a) }

/-- `enrichHunksWithContext` (in-place mutation embedded as a map). -/
def enrichHunksWithContext (files : List FileDiff) (radius : Nat)
    (refs : GitRefs) (o : ContentOracles) : List FileDiff :=
  files.map (enrichFile radius refs o)

/-! ## Shape of the files the parser emits -/

/-- The pipe-joined identifying string whose hash is the file id. -/
def fileIdInput (seed : String) (f : FileDiff) : String :=
  String.intercalate "|"
    [seed, f.pathOld.getD "", f.pathNew.getD "", statusString f.status,
      f.modeBefore.getD "", f.modeAfter.getD ""]

theorem mkFile_id (seed : String) (cur : CurFile) :
    (mkFile seed cur).id = stableHash (fileIdInput seed (mkFile seed cur)) := by
  simp [mkFile, fileIdInput]

theorem mkFile_stats_hunks (seed : String) (cur : CurFile) :
    (mkFile seed cur).stats.hunks = (mkFile seed cur).hunks.length := by
  simp [mkFile]

/-- Every file of the parse output is a finalized current record. -/
theorem parseLines_mem (seed : String) :
    ∀ (ls : List (List Char)) (st : PState) (acc : List FileDiff)
      (f : FileDiff), f ∈ parseLines seed ls st acc →
      f ∈ acc ∨ ∃ cur, f = mkFile seed cur := by
  intro ls
  induction ls with
  | nil =>
    intro st acc f hf
    cases st <;> simp only [parseLines, finalFiles, List.append_nil,
      List.mem_append, List.mem_singleton] at hf
    · exact .inl hf
    · rcases hf with h | h
      · exact .inl h
      · exact .inr ⟨_, h⟩
    · rcases hf with h | h
      · exact .inl h
      · exact .inr ⟨_, h⟩
  | cons l rest ih =>
    intro st acc f hf
    cases st with
    | noFile =>
      simp only [parseLines] at hf
      split at hf
      · exact ih _ _ _ hf
      · exact ih _ _ _ hf
    | top cur =>
      simp only [parseLines] at hf
      split at hf
      · rcases ih _ _ _ hf with h | h
        · rcases List.mem_append.1 h with h' | h'
          · exact .inl h'
          · exact .inr ⟨_, List.mem_singleton.1 h'⟩
        · exact .inr h
      · rcases htop : topStep l cur with cur' | ⟨cur', p⟩ <;> rw [htop] at hf
        · exact ih _ _ _ hf
        · exact ih _ _ _ hf
    | inHunk cur p =>
      simp only [parseLines] at hf
      split at hf
      · split at hf
        · rcases ih _ _ _ hf with h | h
          · rcases List.mem_append.1 h with h' | h'
            · exact .inl h'
            · exact .inr ⟨_, List.mem_singleton.1 h'⟩
          · exact .inr h
        · rcases htop : topStep l (attachPending cur p) with cur' | ⟨cur', p'⟩ <;>
            rw [htop] at hf
          · exact ih _ _ _ hf
          · exact ih _ _ _ hf
      · exact ih _ _ _ hf

/-- Specialization to `parseUnifiedDiffWith`. -/
theorem mem_parse_files {opts : ParseOptions} {t : String} {f : FileDiff}
    (hf : f ∈ (parseUnifiedDiffWith opts t).files) :
    ∃ cur, f = mkFile (opts.fileIdSeed.getD "") cur := by
  rcases parseLines_mem _ _ _ _ _ hf with h | h
  · simp at h
  · exact h

/-- The id of every emitted file is the hash of its own identifying
fields (plus the seed of the invocation). -/
theorem parse_file_id {opts : ParseOptions} {t : String} {f : FileDiff}
    (hf : f ∈ (parseUnifiedDiffWith opts t).files) :
    f.id = stableHash (fileIdInput (opts.fileIdSeed.getD "") f) := by
  rcases mem_parse_files hf with ⟨cur, rfl⟩
  exact mkFile_id _ _

/-- A placeholder `FileDiff` for total head operations in witnesses. -/
def defaultFileDiff : FileDiff :=
  { id := "", pathOld := none, pathNew := none, status := .unknown,
    isBinary := false, language := none, similarityIndex := none,
    modeBefore := none, modeAfter := none, stats := ⟨0, 0, 0⟩, hunks := [],
    rawPatch := "", attachments := none }

/-- The totals fold, characterized. -/
theorem computeTotals_foldl (fs : List FileDiff) (a b c d : Nat) :
    fs.foldl
      (fun (acc : Nat × Nat × Nat × Nat) f =>
        (acc.1 + f.stats.additions, acc.2.1 + f.stats.deletions,
          acc.2.2.1 + f.hunks.length, acc.2.2.2 + (if f.isBinary then 1 else 0)))
      (a, b, c, d) =
    (a + (fs.map (fun f => f.stats.additions)).sum,
      b + (fs.map (fun f => f.stats.deletions)).sum,
      c + (fs.map (fun f => f.hunks.length)).sum,
      d + (fs.filter (fun f => f.isBinary)).length) := by
  induction fs generalizing a b c d with
  | nil => simp
  | cons f fs ih =>
    simp only [List.foldl_cons, ih, List.map_cons, List.sum_cons, List.filter_cons]
    refine Prod.ext ?_ (Prod.ext ?_ (Prod.ext ?_ ?_))
    · simp; omega
    · simp; omega
    · simp; omega
    · by_cases hb : f.isBinary <;> simp [hb] <;> omega

/-- `computeTotals`, characterized. -/
theorem computeTotals_spec (fs : List FileDiff) :
    computeTotals fs =
      { filesChanged := fs.length,
        additions := (fs.map (fun f => f.stats.additions)).sum,
        deletions := (fs.map (fun f => f.stats.deletions)).sum,
        hunks := (fs.map (fun f => f.hunks.length)).sum,
        binaryFilesChanged := (fs.filter (fun f => f.isBinary)).length } := by
  simp only [computeTotals, computeTotals_foldl, Nat.zero_add]

/-! ## Invariants of the hunks the parser emits -/

/-- The number-presence pattern a parsed line satisfies: adds carry only
the new number, dels only the old, `' '`-context lines both, and
leniency context lines (unrecognized prefix) neither. -/
def LineNumbersOk (e : HunkLine) : Prop :=
  (e.op = .add → e.oldNumber = none ∧ e.newNumber.isSome = true) ∧
  (e.op = .del → e.newNumber = none ∧ e.oldNumber.isSome = true) ∧
  (e.op = .context →
    (e.oldNumber.isSome = true ∧ e.newNumber.isSome = true) ∨
    (e.oldNumber = none ∧ e.newNumber = none))

/-- Shape of every hunk the parser builds. -/
def ParsedHunkOk (h : Hunk) : Prop :=
  h.contentHash = none ∧ ∀ e ∈ h.lines, LineNumbersOk e

/-- The invariant carried through the loop. -/
def PStateOk : PState → Prop
  | .noFile => True
  | .top cur => ∀ h ∈ cur.hunksRev, ParsedHunkOk h
  | .inHunk cur p =>
    (∀ h ∈ cur.hunksRev, ParsedHunkOk h) ∧ p.hunk.contentHash = none ∧
      ∀ e ∈ p.linesRev, LineNumbersOk e

theorem applyIndex_hunksRev (c : CurFile) (l : List Char) :
    (applyIndex c l).hunksRev = c.hunksRev := by
  unfold applyIndex
  split
  · rfl
  · split <;> rfl

theorem applySimilarity_hunksRev (c : CurFile) (l : List Char) :
    (applySimilarity c l).hunksRev = c.hunksRev := by
  unfold applySimilarity
  split <;> rfl

theorem topStep_inl_hunksRev {l : List Char} {cur cur' : CurFile}
    (h : topStep l cur = .inl cur') : cur'.hunksRev = cur.hunksRev := by
  cases hk : classifyTop l <;> simp only [topStep, hk] at h
  all_goals first
    | exact Sum.noConfusion h
    | (injection h with h2; subst h2;
        simp [pushRawLine, applyIndex_hunksRev, applySimilarity_hunksRev,
          applyOldMode, applyNewMode, applyRenameFrom, applyRenameTo,
          applyCopyFrom, applyCopyTo, applyPathOld, applyPathNew, applyBinary])

theorem topStep_inr_shape {l : List Char} {cur cur' : CurFile} {p : Pending}
    (h : topStep l cur = .inr (cur', p)) :
    cur'.hunksRev = cur.hunksRev ∧ p.linesRev = [] ∧
      p.hunk.contentHash = none ∧ p.oldNum = p.hunk.oldStart ∧
      p.newNum = p.hunk.newStart := by
  cases hk : classifyTop l <;> simp only [topStep, hk] at h
  all_goals first
    | exact Sum.noConfusion h
    | (simp only [startHunk] at h;
        injection h with h2; injection h2 with hc hp; subst hc; subst hp;
        exact ⟨by simp [pushRawLine], rfl, by simp [mkHunk], by simp [mkHunk],
          by simp [mkHunk]⟩)

theorem setHeadNoNewline_ok {es : List HunkLine}
    (h : ∀ e ∈ es, LineNumbersOk e) : ∀ e ∈ setHeadNoNewline es, LineNumbersOk e := by
  cases es with
  | nil => simp [setHeadNoNewline]
  | cons e t =>
    intro e' he'
    simp only [setHeadNoNewline, List.mem_cons] at he'
    rcases he' with rfl | he'
    · have := h e (by simp)
      unfold LineNumbersOk at this ⊢
      simpa using this
    · exact h e' (by simp [he'])

theorem hunkBodyStep_ok {l : List Char} {p : Pending} {adds dels : Nat}
    (hh : p.hunk.contentHash = none) (hl : ∀ e ∈ p.linesRev, LineNumbersOk e) :
    (hunkBodyStep l p adds dels).1.hunk.contentHash = none ∧
      ∀ e ∈ (hunkBodyStep l p adds dels).1.linesRev, LineNumbersOk e := by
  unfold hunkBodyStep
  split
  · exact ⟨hh, setHeadNoNewline_ok hl⟩
  · split <;>
      refine ⟨hh, ?_⟩ <;>
      intro e he <;>
      simp only [List.mem_cons] at he <;>
      rcases he with rfl | he <;>
      first
        | exact ⟨by simp, by simp, by simp⟩
        | exact hl e he

theorem attachPending_ok {cur : CurFile} {p : Pending}
    (hc : ∀ h ∈ cur.hunksRev, ParsedHunkOk h)
    (hh : p.hunk.contentHash = none)
    (hl : ∀ e ∈ p.linesRev, LineNumbersOk e) :
    ∀ h ∈ (attachPending cur p).hunksRev, ParsedHunkOk h := by
  intro h hmem
  simp only [attachPending, List.mem_cons] at hmem
  rcases hmem with rfl | hmem
  · exact ⟨hh, by intro e he; simp only [List.mem_reverse] at he; exact hl e he⟩
  · exact hc h hmem

theorem mkFile_hunks_ok {seed : String} {cur : CurFile}
    (hc : ∀ h ∈ cur.hunksRev, ParsedHunkOk h) :
    ∀ h ∈ (mkFile seed cur).hunks, ParsedHunkOk h := by
  intro h hmem
  simp only [mkFile, List.mem_reverse] at hmem
  exact hc h hmem

/-- The parsed-hunk invariant holds of every file of the output. -/
theorem parseLines_hunksOk (seed : String) :
    ∀ (ls : List (List Char)) (st : PState) (acc : List FileDiff),
      PStateOk st → (∀ f ∈ acc, ∀ h ∈ f.hunks, ParsedHunkOk h) →
      ∀ f ∈ parseLines seed ls st acc, ∀ h ∈ f.hunks, ParsedHunkOk h := by
  intro ls
  induction ls with
  | nil =>
    intro st acc hst hacc f hf
    cases st with
    | noFile => simp only [parseLines, finalFiles, List.append_nil] at hf; exact hacc f hf
    | top cur =>
      simp only [parseLines, finalFiles, List.mem_append, List.mem_singleton] at hf
      rcases hf with hf | rfl
      · exact hacc f hf
      · exact mkFile_hunks_ok hst
    | inHunk cur p =>
      simp only [parseLines, finalFiles, List.mem_append, List.mem_singleton] at hf
      rcases hf with hf | rfl
      · exact hacc f hf
      · exact mkFile_hunks_ok (attachPending_ok hst.1 hst.2.1 hst.2.2)
  | cons l rest ih =>
    intro st acc hst hacc f hf
    cases st with
    | noFile =>
      simp only [parseLines] at hf
      split at hf
      · exact ih _ _ (by simp [PStateOk, newCur]) hacc f hf
      · exact ih _ _ (show PStateOk .noFile from True.intro) hacc f hf
    | top cur =>
      simp only [parseLines] at hf
      split at hf
      · refine ih _ _ (by simp [newCur, PStateOk]) ?_ f hf
        intro f' hf'
        rcases List.mem_append.1 hf' with h' | h'
        · exact hacc f' h'
        · rcases List.mem_singleton.1 h' with rfl
          exact mkFile_hunks_ok hst
      · rcases htop : topStep l cur with cur' | ⟨cur', p⟩ <;> rw [htop] at hf
        · refine ih _ _ ?_ hacc f hf
          simpa [PStateOk, topStep_inl_hunksRev htop] using hst
        · refine ih _ _ ?_ hacc f hf
          obtain ⟨he, hp1, hp2, _, _⟩ := topStep_inr_shape htop
          exact ⟨he ▸ hst, hp2, by simp [hp1]⟩
    | inHunk cur p =>
      simp only [parseLines] at hf
      have hcur1 : ∀ h ∈ (attachPending cur p).hunksRev, ParsedHunkOk h :=
        attachPending_ok hst.1 hst.2.1 hst.2.2
      split at hf
      · split at hf
        · refine ih _ _ (by simp [newCur, PStateOk]) ?_ f hf
          intro f' hf'
          rcases List.mem_append.1 hf' with h' | h'
          · exact hacc f' h'
          · rcases List.mem_singleton.1 h' with rfl
            exact mkFile_hunks_ok hcur1
        · rcases htop : topStep l (attachPending cur p) with cur' | ⟨cur', p'⟩ <;>
            rw [htop] at hf
          · refine ih _ _ ?_ hacc f hf
            simpa [PStateOk, topStep_inl_hunksRev htop] using hcur1
          · refine ih _ _ ?_ hacc f hf
            obtain ⟨he, hp1, hp2, _, _⟩ := topStep_inr_shape htop
            exact ⟨he ▸ hcur1, hp2, by simp [hp1]⟩
      · refine ih _ _ ?_ hacc f hf
        obtain ⟨h1, h2⟩ := hunkBodyStep_ok hst.2.1 hst.2.2
        exact ⟨hst.1, h1, h2⟩

/-- Specialization: the invariant for every hunk of every parsed file. -/
theorem parse_hunk_ok {opts : ParseOptions} {t : String} {f : FileDiff}
    {h : Hunk} (hf : f ∈ (parseUnifiedDiffWith opts t).files) (hh : h ∈ f.hunks) :
    ParsedHunkOk h :=
  parseLines_hunksOk _ _ _ _ (show PStateOk .noFile from True.intro) (by simp) f hf h hh

/-! ## Concrete inputs used by counterexamples and witnesses -/

/-- A plain single-file diff: one hunk, one addition, one deletion. -/
def demoDiff : String :=
  "diff --git a/f.txt b/f.txt\n" ++
  "index 1234567..89abcde 100644\n" ++
  "--- a/f.txt\n" ++
  "+++ b/f.txt\n" ++
  "@@ -10,3 +10,4 @@ section\n" ++
  " ctx1\n" ++
  "+added\n" ++
  "-gone\n" ++
  " ctx2\n"

/-- A lenient input whose path metadata continues after its hunk: the
hunk id is hashed from `a/old1` although the finalized file's old path
is `a/old2`. -/
def cexIdA : String :=
  "diff --git a/f b/f\n--- a/old1\n+++ b/f\n@@ -1 +1 @@\n-x\n" ++
  "index 1111111..2222222\n--- a/old2\n"

/-- The same change described with `a/old2` from the start: the
finalized file carries the same identifying fields as `cexIdA`'s. -/
def cexIdB : String :=
  "diff --git a/f b/f\n--- a/old2\n+++ b/f\n@@ -1 +1 @@\n-x\n" ++
  "index 1111111..2222222\n"

/-- A placeholder `Hunk` for total head operations in witnesses. -/
def defaultHunk : Hunk :=
  { id := "", oldStart := 0, oldLines := 0, newStart := 0, newLines := 0,
    contentHash := none, sectionHeading := none, lines := [], rawHeader := "",
    attachments := none }

/-- A placeholder `HunkLine` for total head operations in witnesses. -/
def defaultHunkLine : HunkLine :=
  { id := "", op := .context, text := "", oldNumber := none,
    newNumber := none, noNewlineAtEndOfFile := false }

/-! ## The claims -/

/-- C2 (amended): file-id determinism as claimed — any two parse
invocations with the same options assign equal ids to file blocks whose
(path-old, path-new, status, mode-before, mode-after) fields are
textually identical; hunk-id determinism holds for the path pair the
parser state records at the moment the hunk header is parsed (for
well-formed diffs this is the enclosing file's path pair): hunks created
with identical such path pair, ordinal index, four (defaulted) range
numbers and trimmed section heading receive the identical id,
independently of the raw header text. -/
theorem id_determinism :
    (∀ (opts : ParseOptions) (t1 t2 : String) (f1 f2 : FileDiff),
      f1 ∈ (parseUnifiedDiffWith opts t1).files →
      f2 ∈ (parseUnifiedDiffWith opts t2).files →
      f1.pathOld = f2.pathOld → f1.pathNew = f2.pathNew →
      f1.status = f2.status → f1.modeBefore = f2.modeBefore →
      f1.modeAfter = f2.modeAfter → f1.id = f2.id) ∧
    (∀ (pathOld pathNew : Option String) (idx : Nat) (m m' : HunkHdrMatch)
      (raw raw' : List Char),
      m.oldStart = m'.oldStart → m.oldCountOpt.getD 1 = m'.oldCountOpt.getD 1 →
      m.newStart = m'.newStart → m.newCountOpt.getD 1 = m'.newCountOpt.getD 1 →
      jsTrimChars m.heading = jsTrimChars m'.heading →
      (mkHunk pathOld pathNew idx m raw).id = (mkHunk pathOld pathNew idx m' raw').id) := by
  constructor
  · intro opts t1 t2 f1 f2 h1 h2 e1 e2 e3 e4 e5
    rw [parse_file_id h1, parse_file_id h2]
    unfold fileIdInput
    rw [e1, e2, e3, e4, e5]
  · intro po pn idx m m' raw raw' e1 e2 e3 e4 e5
    simp only [mkHunk, e1, e2, e3, e4, e5]

/-- C2 witness: the two lenient inputs produce files with identical
identifying fields, and the file ids coincide. -/
theorem id_determinism_witness :
    ((parseUnifiedDiff cexIdA).files.headD defaultFileDiff).id =
      ((parseUnifiedDiff cexIdB).files.headD defaultFileDiff).id :=
  id_determinism.1 ⟨none⟩ cexIdA cexIdB _ _
    (by decide) (by decide) (by decide) (by decide) (by decide)
    (by decide) (by decide)

/-- The identifying fields of a file named in the claim. -/
structure FileIdView where
  pathOld : Option String
  pathNew : Option String
  status : FileStatus
  modeBefore : Option String
  modeAfter : Option String
deriving DecidableEq, Repr

/-- Project the identifying fields of a file. -/
def fileIdView (f : FileDiff) : FileIdView :=
  ⟨f.pathOld, f.pathNew, f.status, f.modeBefore, f.modeAfter⟩

/-- The identifying view of a hunk named in the claim: ordinal position
is the list position, plus the four range numbers and the heading. -/
structure HunkRangeView where
  oldStart : Nat
  oldLines : Nat
  newStart : Nat
  newLines : Nat
  sectionHeading : Option String
deriving DecidableEq, Repr

/-- Project the range view of a hunk. -/
def hunkRangeView (h : Hunk) : HunkRangeView :=
  ⟨h.oldStart, h.oldLines, h.newStart, h.newLines, h.sectionHeading⟩

/-- C2 counterexample: the two parses yield single files with identical
(path-old, path-new, status, mode-before, mode-after) fields and hunks
with identical ordinal index, four range numbers and section heading,
yet the hunk ids differ — the hunk id was hashed from the path pair in
effect when the header was parsed, not from the finalized file's. -/
theorem id_determinism_counterexample :
    ((parseUnifiedDiff cexIdA).files.map fileIdView) =
      ((parseUnifiedDiff cexIdB).files.map fileIdView) ∧
    ((parseUnifiedDiff cexIdA).files.map fun f => f.hunks.map hunkRangeView) =
      ((parseUnifiedDiff cexIdB).files.map fun f => f.hunks.map hunkRangeView) ∧
    ((parseUnifiedDiff cexIdA).files.map fun f => f.hunks.map fun h => h.id) ≠
      ((parseUnifiedDiff cexIdB).files.map fun f => f.hunks.map fun h => h.id) := by
  refine ⟨by decide, by decide, by decide⟩

/-- C3: the parser never computes the content hash the schema and the
planning notes promise — every hunk of every parse carries
`contentHash = none`. -/
theorem content_hash_never_computed :
    ∀ (t : String) (f : FileDiff) (h : Hunk),
      f ∈ (parseUnifiedDiff t).files → h ∈ f.hunks → h.contentHash = none :=
  fun _ _ _ hf hh => (parse_hunk_ok hf hh).1

/-- C3 witness: the demo diff's hunk has no content hash. -/
theorem content_hash_never_computed_witness :
    (((parseUnifiedDiff demoDiff).files.headD defaultFileDiff).hunks.headD
        defaultHunk).contentHash = none :=
  content_hash_never_computed demoDiff
    ((parseUnifiedDiff demoDiff).files.headD defaultFileDiff)
    (((parseUnifiedDiff demoDiff).files.headD defaultFileDiff).hunks.headD defaultHunk)
    (by decide) (by decide)

/-- C4: the document totals are the element-wise sums of the per-file
stats, the file count, and the binary-flag count. -/
theorem totals_invariant (diffText : String) :
    (parseUnifiedDiff diffText).totals.filesChanged =
        (parseUnifiedDiff diffText).files.length ∧
    (parseUnifiedDiff diffText).totals.additions =
        ((parseUnifiedDiff diffText).files.map fun f => f.stats.additions).sum ∧
    (parseUnifiedDiff diffText).totals.deletions =
        ((parseUnifiedDiff diffText).files.map fun f => f.stats.deletions).sum ∧
    (parseUnifiedDiff diffText).totals.hunks =
        ((parseUnifiedDiff diffText).files.map fun f => f.stats.hunks).sum ∧
    (parseUnifiedDiff diffText).totals.binaryFilesChanged =
        ((parseUnifiedDiff diffText).files.filter fun f => f.isBinary).length := by
  have hmem : ∀ f ∈ (parseUnifiedDiff diffText).files,
      f.stats.hunks = f.hunks.length := by
    intro f hf
    rcases mem_parse_files hf with ⟨cur, rfl⟩
    exact mkFile_stats_hunks _ _
  have hmap : ((parseUnifiedDiff diffText).files.map fun f => f.stats.hunks) =
      ((parseUnifiedDiff diffText).files.map fun f => f.hunks.length) :=
    List.map_congr_left hmem
  have hts : (parseUnifiedDiff diffText).totals =
      computeTotals (parseUnifiedDiff diffText).files := rfl
  rw [hts, computeTotals_spec, hmap]
  exact ⟨rfl, rfl, rfl, rfl, rfl⟩

/-- C5: the classifier's precedence, in the source's order; in
particular, rename markers win over the null-device test on the old
path. -/
theorem status_precedence (sawRen sawCopy : Bool) (oldPath newPath : Option String) :
    (sawRen = true → inferStatus sawRen sawCopy oldPath newPath = .renamed) ∧
    (sawRen = false → sawCopy = true →
      inferStatus sawRen sawCopy oldPath newPath = .copied) ∧
    (sawRen = false → sawCopy = false → oldPath = some "/dev/null" →
      inferStatus sawRen sawCopy oldPath newPath = .added) ∧
    (sawRen = false → sawCopy = false → oldPath ≠ some "/dev/null" →
      newPath = some "/dev/null" →
      inferStatus sawRen sawCopy oldPath newPath = .deleted) ∧
    (sawRen = false → sawCopy = false → oldPath ≠ some "/dev/null" →
      newPath ≠ some "/dev/null" →
      inferStatus sawRen sawCopy oldPath newPath = .modified) := by
  refine ⟨?_, ?_, ?_, ?_, ?_⟩ <;> intros <;> simp_all [inferStatus]

/-- C5 witness: a block with rename markers whose old path is the null
device still classifies as renamed. -/
theorem status_precedence_witness :
    inferStatus true false (some "/dev/null") (some "b/f") = .renamed :=
  (status_precedence true false (some "/dev/null") (some "b/f")).1 rfl

/-- C6: missing range counts in a hunk header default to 1; the inner
loop starts its two counters at `oldStart`/`newStart`; a context line is
assigned both current numbers and advances both counters, an add line
only the new number/counter, a del line only the old number/counter. -/
theorem line_numbering :
    (∀ (pathOld pathNew : Option String) (idx oldStart newStart : Nat)
        (heading raw : List Char),
      (mkHunk pathOld pathNew idx ⟨oldStart, none, newStart, none, heading⟩ raw).oldLines = 1 ∧
      (mkHunk pathOld pathNew idx ⟨oldStart, none, newStart, none, heading⟩ raw).newLines = 1) ∧
    (∀ (l : List Char) (cur cur' : CurFile) (p : Pending),
      topStep l cur = .inr (cur', p) →
      p.oldNum = p.hunk.oldStart ∧ p.newNum = p.hunk.newStart) ∧
    (∀ (l : List Char) (p : Pending) (a d : Nat),
      (l.head? = some ' ' →
        (hunkBodyStep l p a d).1.linesRev =
          ⟨toString (p.linesRev.length + 1), .context, String.mk l.tail,
            some p.oldNum, some p.newNum, false⟩ :: p.linesRev ∧
        (hunkBodyStep l p a d).1.oldNum = p.oldNum + 1 ∧
        (hunkBodyStep l p a d).1.newNum = p.newNum + 1) ∧
      (l.head? = some '+' →
        (hunkBodyStep l p a d).1.linesRev =
          ⟨toString (p.linesRev.length + 1), .add, String.mk l.tail,
            none, some p.newNum, false⟩ :: p.linesRev ∧
        (hunkBodyStep l p a d).1.oldNum = p.oldNum ∧
        (hunkBodyStep l p a d).1.newNum = p.newNum + 1) ∧
      (l.head? = some '-' →
        (hunkBodyStep l p a d).1.linesRev =
          ⟨toString (p.linesRev.length + 1), .del, String.mk l.tail,
            some p.oldNum, none, false⟩ :: p.linesRev ∧
        (hunkBodyStep l p a d).1.oldNum = p.oldNum + 1 ∧
        (hunkBodyStep l p a d).1.newNum = p.newNum)) := by
  refine ⟨?_, ?_, ?_⟩
  · intro po pn idx os ns hd raw
    exact ⟨by simp [mkHunk], by simp [mkHunk]⟩
  · intro l cur cur' p h
    exact (topStep_inr_shape h).2.2.2
  · intro l p a d
    refine ⟨?_, ?_, ?_⟩
    · intro hh
      cases l with
      | nil => simp at hh
      | cons c t =>
        simp only [List.head?_cons, Option.some.injEq] at hh
        subst hh
        have hne : ¬(' ' :: t = noNewlineMarker) := by simp [noNewlineMarker]
        simp [hunkBodyStep, hne]
    · intro hh
      cases l with
      | nil => simp at hh
      | cons c t =>
        simp only [List.head?_cons, Option.some.injEq] at hh
        subst hh
        have hne : ¬('+' :: t = noNewlineMarker) := by simp [noNewlineMarker]
        simp [hunkBodyStep, hne]
    · intro hh
      cases l with
      | nil => simp at hh
      | cons c t =>
        simp only [List.head?_cons, Option.some.injEq] at hh
        subst hh
        have hne : ¬('-' :: t = noNewlineMarker) := by simp [noNewlineMarker]
        simp [hunkBodyStep, hne]

/-- C6 witness: for a hunk starting at old 10/new 10, the missing
counts default to 1, a context line gets old=10/new=10 and advances
both counters, an add line gets new=10 with old absent. -/
theorem line_numbering_witness :
    (mkHunk none none 0 ⟨10, none, 10, none, []⟩ [] ).oldLines = 1 ∧
    (hunkBodyStep (' ' :: "x".data) ⟨defaultHunk, [], 10, 10⟩ 0 0).1.linesRev =
      ⟨"1", .context, "x", some 10, some 10, false⟩ :: [] ∧
    (hunkBodyStep (' ' :: "x".data) ⟨defaultHunk, [], 10, 10⟩ 0 0).1.oldNum = 11 ∧
    (hunkBodyStep ('+' :: "y".data) ⟨defaultHunk, [], 10, 10⟩ 0 0).1.linesRev =
      ⟨"1", .add, "y", none, some 10, false⟩ :: [] := by
  obtain ⟨hdef, _, hstep⟩ := line_numbering
  obtain ⟨hctx, hadd, _⟩ := hstep (' ' :: "x".data) ⟨defaultHunk, [], 10, 10⟩ 0 0
  obtain ⟨hctx2, hadd2, _⟩ := hstep ('+' :: "y".data) ⟨defaultHunk, [], 10, 10⟩ 0 0
  refine ⟨(hdef none none 0 10 10 [] []).1, ?_, ?_, ?_⟩
  · exact (hctx rfl).1
  · exact (hctx rfl).2.1
  · exact (hadd2 rfl).1

/-- C7 (amended): adds carry only the new number and dels only the old,
as claimed; context lines carry both numbers when they came from a
`' '`-prefixed line, but the leniency fallback records context lines
with neither number. -/
theorem line_number_presence :
    ∀ (t : String) (f : FileDiff) (h : Hunk) (e : HunkLine),
      f ∈ (parseUnifiedDiff t).files → h ∈ f.hunks → e ∈ h.lines →
      (e.op = .add → e.oldNumber = none ∧ e.newNumber.isSome = true) ∧
      (e.op = .del → e.newNumber = none ∧ e.oldNumber.isSome = true) ∧
      (e.op = .context →
        (e.oldNumber.isSome = true ∧ e.newNumber.isSome = true) ∨
        (e.oldNumber = none ∧ e.newNumber = none)) :=
  fun _ _ _ e hf hh he => (parse_hunk_ok hf hh).2 e he

/-- C7 counterexample: the demo diff (which ends in a newline) yields a
context line with neither number, contradicting "context lines carry
both numbers". -/
theorem line_number_presence_counterexample :
    ∃ f ∈ (parseUnifiedDiff demoDiff).files, ∃ h ∈ f.hunks, ∃ e ∈ h.lines,
      e.op = .context ∧ e.oldNumber = none ∧ e.newNumber = none := by
  decide

/-- The first file, first hunk, second line of the demo parse. -/
def demoAddLine : HunkLine :=
  (((parseUnifiedDiff demoDiff).files.headD defaultFileDiff).hunks.headD
      defaultHunk).lines.getD 1 defaultHunkLine

/-- C7 witness: the amended invariant at the demo diff's add line. -/
theorem line_number_presence_witness :
    demoAddLine.oldNumber = none ∧ demoAddLine.newNumber.isSome = true :=
  (line_number_presence demoDiff
    ((parseUnifiedDiff demoDiff).files.headD defaultFileDiff)
    (((parseUnifiedDiff demoDiff).files.headD defaultFileDiff).hunks.headD defaultHunk)
    demoAddLine
    (by decide) (by decide) (by decide)).1 (by decide)

/-- C10: a hunk line whose leading character is none of `' '`, `'+'`,
`'-'` (including the empty line) is recorded as context with both
numbers null, advances neither counter, and increments neither the
addition nor the deletion count. -/
theorem leniency_context :
    ∀ (l : List Char) (p : Pending) (a d : Nat),
      l ≠ noNewlineMarker → l.head? ≠ some ' ' → l.head? ≠ some '+' →
      l.head? ≠ some '-' →
      (hunkBodyStep l p a d).1.linesRev =
        ⟨toString (p.linesRev.length + 1), .context, String.mk l.tail,
          none, none, false⟩ :: p.linesRev ∧
      (hunkBodyStep l p a d).1.oldNum = p.oldNum ∧
      (hunkBodyStep l p a d).1.newNum = p.newNum ∧
      (hunkBodyStep l p a d).2.1 = a ∧
      (hunkBodyStep l p a d).2.2 = d := by
  intro l p a d hm h1 h2 h3
  cases l with
  | nil => simp [hunkBodyStep, show ¬(([] : List Char) = noNewlineMarker) from hm]
  | cons c t =>
    simp only [List.head?_cons, ne_eq, Option.some.injEq] at h1 h2 h3
    simp [hunkBodyStep, show ¬(c :: t = noNewlineMarker) from hm, h1, h2, h3]

/-- The per-hunk frame fact for the enricher. -/
theorem enrichHunk_frame (radius : Nat) (b a : Option String) (h : Hunk) :
    ((enrichHunk radius b a h).id = h.id ∧
      (enrichHunk radius b a h).contentHash = h.contentHash ∧
      (enrichHunk radius b a h).oldStart = h.oldStart ∧
      (enrichHunk radius b a h).oldLines = h.oldLines ∧
      (enrichHunk radius b a h).newStart = h.newStart ∧
      (enrichHunk radius b a h).newLines = h.newLines ∧
      (enrichHunk radius b a h).sectionHeading = h.sectionHeading ∧
      (enrichHunk radius b a h).lines = h.lines ∧
      (enrichHunk radius b a h).rawHeader = h.rawHeader) ∧
    ((enrichHunk radius b a h).attachments = h.attachments ∨
      ∃ bb aa, (enrichHunk radius b a h).attachments = some ⟨some ⟨radius, bb, aa⟩⟩) := by
  simp only [enrichHunk]
  split
  · exact ⟨⟨rfl, rfl, rfl, rfl, rfl, rfl, rfl, rfl, rfl⟩, .inr ⟨_, _, rfl⟩⟩
  · exact ⟨⟨rfl, rfl, rfl, rfl, rfl, rfl, rfl, rfl, rfl⟩, .inl rfl⟩

/-- C9: the Context Enricher is a frame transformation — every field of
every file is unchanged except the hunks' optional attachments; a
changed attachment is exactly a context object recording the used
radius; binary files are returned untouched.  Failure of any content
lookup (the oracles returning `none`) only reduces which sides get an
attachment and never fails the stage. -/
theorem enricher_frame :
    ∀ (files : List FileDiff) (radius : Nat) (refs : GitRefs) (o : ContentOracles),
      List.Forall₂ (fun f f' =>
        (f'.id = f.id ∧ f'.pathOld = f.pathOld ∧ f'.pathNew = f.pathNew ∧
          f'.status = f.status ∧ f'.isBinary = f.isBinary ∧
          f'.language = f.language ∧ f'.similarityIndex = f.similarityIndex ∧
          f'.modeBefore = f.modeBefore ∧ f'.modeAfter = f.modeAfter ∧
          f'.stats = f.stats ∧ f'.rawPatch = f.rawPatch ∧
          f'.attachments = f.attachments) ∧
        (f.isBinary = true → f' = f) ∧
        List.Forall₂ (fun h h' =>
          (h'.id = h.id ∧ h'.contentHash = h.contentHash ∧
            h'.oldStart = h.oldStart ∧ h'.oldLines = h.oldLines ∧
            h'.newStart = h.newStart ∧ h'.newLines = h.newLines ∧
            h'.sectionHeading = h.sectionHeading ∧ h'.lines = h.lines ∧
            h'.rawHeader = h.rawHeader) ∧
          (h'.attachments = h.attachments ∨
            ∃ bb aa, h'.attachments = some ⟨some ⟨radius, bb, aa⟩⟩))
          f.hunks f'.hunks)
        files (enrichHunksWithContext files radius refs o) := by
  intro files radius refs o
  have hhunks : ∀ (b a : Option String) (hs : List Hunk),
      List.Forall₂ (fun h h' =>
        (h'.id = h.id ∧ h'.contentHash = h.contentHash ∧
          h'.oldStart = h.oldStart ∧ h'.oldLines = h.oldLines ∧
          h'.newStart = h.newStart ∧ h'.newLines = h.newLines ∧
          h'.sectionHeading = h.sectionHeading ∧ h'.lines = h.lines ∧
          h'.rawHeader = h.rawHeader) ∧
        (h'.attachments = h.attachments ∨
          ∃ bb aa, h'.attachments = some ⟨some ⟨radius, bb, aa⟩⟩))
        hs (hs.map (enrichHunk radius b a)) := by
    intro b a hs
    induction hs with
    | nil => exact .nil
    | cons h hs ih =>
      refine List.Forall₂.cons ?_ ih
      obtain ⟨h1, h2⟩ := enrichHunk_frame radius b a h
      exact ⟨h1, h2⟩
  induction files with
  | nil => exact .nil
  | cons f fs ih =>
    refine List.Forall₂.cons ?_ ih
    show _ ∧ _ ∧ _
    by_cases hb : f.isBinary
    · refine ⟨?_, fun _ => by simp [enrichFile, hb], ?_⟩
      · simp [enrichFile, hb]
      · have : enrichFile radius refs o f = f := by simp [enrichFile, hb]
        rw [this]
        exact List.forall₂_same.2 (fun h _ => ⟨⟨rfl, rfl, rfl, rfl, rfl, rfl, rfl, rfl, rfl⟩, .inl rfl⟩)
    · have : enrichFile radius refs o f =
          { f with hunks := f.hunks.map (enrichHunk radius
              (resolveContents f refs o).1 (resolveContents f refs o).2) } := by
        simp [enrichFile, hb]
      rw [this]
      exact ⟨⟨rfl, rfl, rfl, rfl, rfl, rfl, rfl, rfl, rfl, rfl, rfl, rfl⟩,
        fun hc => absurd hc hb, hhunks _ _ _⟩

/-- C9 witness: enriching the demo parse with an oracle that always
fails leaves every file unchanged except (possibly) hunk attachments. -/
theorem enricher_frame_witness :
    List.Forall₂ (fun f f' =>
      (f'.id = f.id ∧ f'.pathOld = f.pathOld ∧ f'.pathNew = f.pathNew ∧
        f'.status = f.status ∧ f'.isBinary = f.isBinary ∧
        f'.language = f.language ∧ f'.similarityIndex = f.similarityIndex ∧
        f'.modeBefore = f.modeBefore ∧ f'.modeAfter = f.modeAfter ∧
        f'.stats = f.stats ∧ f'.rawPatch = f.rawPatch ∧
        f'.attachments = f.attachments) ∧
      (f.isBinary = true → f' = f) ∧
      List.Forall₂ (fun h h' =>
        (h'.id = h.id ∧ h'.contentHash = h.contentHash ∧
          h'.oldStart = h.oldStart ∧ h'.oldLines = h.oldLines ∧
          h'.newStart = h.newStart ∧ h'.newLines = h.newLines ∧
          h'.sectionHeading = h.sectionHeading ∧ h'.lines = h.lines ∧
          h'.rawHeader = h.rawHeader) ∧
        (h'.attachments = h.attachments ∨
          ∃ bb aa, h'.attachments = some ⟨some ⟨20, bb, aa⟩⟩))
        f.hunks f'.hunks)
      (parseUnifiedDiff demoDiff).files
      (enrichHunksWithContext (parseUnifiedDiff demoDiff).files 20 ⟨none, none⟩
        ⟨fun _ => none, fun _ _ => none, fun _ => none⟩) :=
  enricher_frame (parseUnifiedDiff demoDiff).files 20 ⟨none, none⟩
    ⟨fun _ => none, fun _ _ => none, fun _ => none⟩

/-- C10 witness: the empty line inside a hunk. -/
theorem leniency_context_witness :
    (hunkBodyStep [] ⟨defaultHunk, [], 5, 7⟩ 2 3).1.linesRev =
      ⟨"1", .context, "", none, none, false⟩ :: [] ∧
    (hunkBodyStep [] ⟨defaultHunk, [], 5, 7⟩ 2 3).1.oldNum = 5 ∧
    (hunkBodyStep [] ⟨defaultHunk, [], 5, 7⟩ 2 3).1.newNum = 7 ∧
    (hunkBodyStep [] ⟨defaultHunk, [], 5, 7⟩ 2 3).2.1 = 2 ∧
    (hunkBodyStep [] ⟨defaultHunk, [], 5, 7⟩ 2 3).2.2 = 3 :=
  leniency_context [] ⟨defaultHunk, [], 5, 7⟩ 2 3
    (by simp [noNewlineMarker]) (by simp) (by simp) (by simp)

/-! ## Valid raw unified diffs (the input grammar of §6)

A structural description of the input format: per-file blocks introduced
by a `diff --git ` line, metadata lines (mode/similarity/rename/copy/
index/path announcements), then either hunks or a binary marker; hunk
bodies are space/`+`/`-`-prefixed lines, each optionally followed by the
standalone no-newline marker.  `render…` produces the diff text of such
a description; the round-trip claim quantifies over all of them.
-/

/-- One hunk content line of the raw format. -/
structure RawLine where
  op : LineOp
  text : List Char
  noNewline : Bool
deriving DecidableEq, Repr

/-- The prefix character of a content line. -/
def renderOp : LineOp → Char
  | .context => ' '
  | .add => '+'
  | .del => '-'

/-- Render one content line (plus its marker when flagged). -/
def renderRawLine (rl : RawLine) : List (List Char) :=
  (renderOp rl.op :: rl.text) :: (if rl.noNewline then [noNewlineMarker] else [])

/-- Decimal digit characters. -/
def digitChar (k : Nat) : Char :=
  if k = 0 then '0' else if k = 1 then '1' else if k = 2 then '2'
  else if k = 3 then '3' else if k = 4 then '4' else if k = 5 then '5'
  else if k = 6 then '6' else if k = 7 then '7' else if k = 8 then '8' else '9'

/-- Decimal rendering of a natural number. -/
def natChars (n : Nat) : List Char :=
  if h : n < 10 then [digitChar n]
  else natChars (n / 10) ++ [digitChar (n % 10)]
decreasing_by exact Nat.div_lt_self (by omega) (by omega)

/-- One raw hunk: the header fields and the body lines. -/
structure RawHunk where
  oldStart : Nat
  oldCount : Option Nat
  newStart : Nat
  newCount : Option Nat
  heading : List Char
  body : List RawLine
deriving DecidableEq, Repr

/-- The optional `,count` segment of a rendered range. -/
def countPart : Option Nat → List Char
  | none => []
  | some c => ',' :: natChars c

/-- Render `@@ -oldStart[,oldLines] +newStart[,newLines] @@heading`. -/
def renderHunkHeader (h : RawHunk) : List Char :=
  "@@ -".data ++ natChars h.oldStart ++ countPart h.oldCount ++
    " +".data ++ natChars h.newStart ++ countPart h.newCount ++
    " @@".data ++ h.heading

/-- Render one hunk. -/
def renderRawHunk (h : RawHunk) : List (List Char) :=
  renderHunkHeader h :: h.body.flatMap renderRawLine

/-- A block's content: hunks, or one binary marker line. -/
inductive RawBody
  | hunks (hs : List RawHunk)
  | binary (marker : List Char)
deriving DecidableEq, Repr

/-- One per-file block. -/
structure RawFileBlock where
  gitLine : List Char
  meta : List (List Char)
  body : RawBody
deriving DecidableEq, Repr

/-- Render a block's content. -/
def renderBody : RawBody → List (List Char)
  | .hunks hs => hs.flatMap renderRawHunk
  | .binary m => [m]

/-- Render one block. -/
def renderBlock (b : RawFileBlock) : List (List Char) :=
  b.gitLine :: (b.meta ++ renderBody b.body)

/-- A whole raw diff: blocks plus whether the text ends in a newline. -/
structure RawDiff where
  blocks : List RawFileBlock
  finalNewline : Bool
deriving DecidableEq, Repr

/-- The line list of a raw diff (a trailing newline contributes one
final empty line after the split). -/
def renderDiffLines (d : RawDiff) : List (List Char) :=
  d.blocks.flatMap renderBlock ++ (if d.finalNewline then [[]] else [])

/-- Join lines with `'\n'`. -/
def joinLines : List (List Char) → List Char
  | [] => []
  | [l] => l
  | l :: l2 :: rest => l ++ '\n' :: joinLines (l2 :: rest)

/-- The diff text of a raw diff. -/
def renderRawDiff (d : RawDiff) : String :=
  String.mk (joinLines (renderDiffLines d))

/-- No newline and no carriage return in a rendered line. -/
def noCRLF (t : List Char) : Bool :=
  !(t.contains '\n') && !(t.contains '\r')

/-- The metadata-line family of the format. -/
def metaLineOk (l : List Char) : Bool :=
  hasPfx "old mode " l || hasPfx "new mode " l || hasPfx "similarity index " l ||
  hasPfx "rename from " l || hasPfx "rename to " l || hasPfx "copy from " l ||
  hasPfx "copy to " l || hasPfx "index " l || hasPfx "--- " l || hasPfx "+++ " l ||
  isBinaryMarker l

/-- A valid content line.  The two last conjuncts exclude del lines
whose text begins `"-- "` and add lines whose text begins `"++ "`:
those render as `--- `/`+++ ` path-announcement look-alikes. -/
def validRawLine (rl : RawLine) : Bool :=
  noCRLF rl.text &&
  !(rl.op == .del && hasPfx "-- " rl.text) &&
  !(rl.op == .add && hasPfx "++ " rl.text)

/-- A valid hunk. -/
def validRawHunk (h : RawHunk) : Bool :=
  !(h.heading.contains '\n') && !(h.heading.any jsDotFails) &&
  h.body.all validRawLine

/-- A valid block. -/
def validBlock (b : RawFileBlock) : Bool :=
  hasPfx "diff --git " b.gitLine && noCRLF b.gitLine &&
  b.meta.all (fun m => metaLineOk m && noCRLF m) &&
  (match b.body with
   | .hunks hs => hs.all validRawHunk
   | .binary mk => isBinaryMarker mk && noCRLF mk)

/-- A valid raw diff. -/
def validDiff (d : RawDiff) : Bool :=
  d.blocks.all validBlock

/-! ### The expected token stream and hunk shapes of a raw diff -/

/-- Shape of one parsed line: operation, text, no-newline flag. -/
def lineShape (e : HunkLine) : LineOp × String × Bool :=
  (e.op, e.text, e.noNewlineAtEndOfFile)

/-- Shape of one parsed hunk: its header token and its line shapes. -/
def hunkShape (h : Hunk) : HunkToken × List (LineOp × String × Bool) :=
  (hunkHeaderToken h, h.lines.map lineShape)

/-- Shape of one parsed file. -/
def fileShape (f : FileDiff) : List (HunkToken × List (LineOp × String × Bool)) :=
  f.hunks.map hunkShape

/-- Expected shape of one raw content line. -/
def rawShape (rl : RawLine) : LineOp × String × Bool :=
  (rl.op, String.mk rl.text, rl.noNewline)

/-- Expected shape of one raw hunk. -/
def astHunkShape (h : RawHunk) : HunkToken × List (LineOp × String × Bool) :=
  (.header (String.mk (renderHunkHeader h)), h.body.map rawShape)

/-- Expected shape of one block. -/
def blockShape (b : RawFileBlock) : List (HunkToken × List (LineOp × String × Bool)) :=
  match b.body with
  | .hunks hs => hs.map astHunkShape
  | .binary _ => []

/-- Flatten shapes into the verifier's token stream. -/
def shapeTokens (s : List (HunkToken × List (LineOp × String × Bool))) : List HunkToken :=
  s.flatMap fun hs => hs.1 :: hs.2.map fun e => .line e.1 e.2.1 e.2.2

/-- The expected token stream of a raw diff. -/
def astTokens (d : RawDiff) : List HunkToken :=
  d.blocks.flatMap fun b => shapeTokens (blockShape b)

/-- The shapes still held in the loop state: the finished hunks of the
open file plus, inside a hunk, the pending hunk. -/
def stShapes : PState → List (List (HunkToken × List (LineOp × String × Bool)))
  | .noFile => []
  | .top cur => [(cur.hunksRev.map hunkShape).reverse]
  | .inHunk cur p =>
    [(cur.hunksRev.map hunkShape).reverse ++
      [(hunkHeaderToken p.hunk, p.linesRev.reverse.map lineShape)]]

/-! ### Prefix and digit toolbox -/

theorem hasPfx_self_append (p : String) (rest : List Char) :
    hasPfx p (p.data ++ rest) = true := by
  simp [hasPfx, List.isPrefixOf_iff_prefix]

theorem hasPfx_mono {p q : String} {l : List Char}
    (hpq : p.data.isPrefixOf q.data = true) (hl : hasPfx q l = true) :
    hasPfx p l = true := by
  simp only [hasPfx, List.isPrefixOf_iff_prefix] at *
  exact hpq.trans hl

theorem hasPfx_excl {p q : String} {l : List Char}
    (h1 : p.data.isPrefixOf q.data = false) (h2 : q.data.isPrefixOf p.data = false)
    (hl : hasPfx q l = true) : hasPfx p l = false := by
  by_contra hp
  simp only [hasPfx, Bool.not_eq_false, List.isPrefixOf_iff_prefix] at hp hl
  rcases List.prefix_or_prefix_of_prefix hp hl with h | h
  · rw [(List.isPrefixOf_iff_prefix).2 h] at h1; exact Bool.noConfusion h1
  · rw [(List.isPrefixOf_iff_prefix).2 h] at h2; exact Bool.noConfusion h2

theorem hasPfx_head {p : String} {l : List Char} {c : Char} {pt : List Char}
    (hp : p.data = c :: pt) (h : hasPfx p l = true) : ∃ t, l = c :: t := by
  simp only [hasPfx, hp, List.isPrefixOf_iff_prefix] at h
  rcases h with ⟨t, ht⟩
  exact ⟨pt ++ t, by simpa using ht.symm⟩

theorem takeWhile_append_all {p : Char → Bool} {xs ys : List Char}
    (hx : ∀ x ∈ xs, p x = true) :
    (xs ++ ys).takeWhile p = xs ++ ys.takeWhile p := by
  induction xs with
  | nil => simp
  | cons x xs ih =>
    have hpx := hx x (by simp)
    simp only [List.cons_append, List.takeWhile_cons, hpx, if_true]
    rw [ih (fun y hy => hx y (by simp [hy]))]

theorem dropWhile_append_all {p : Char → Bool} {xs ys : List Char}
    (hx : ∀ x ∈ xs, p x = true) :
    (xs ++ ys).dropWhile p = ys.dropWhile p := by
  induction xs with
  | nil => simp
  | cons x xs ih =>
    have hpx := hx x (by simp)
    simp only [List.cons_append, List.dropWhile_cons, hpx, if_true]
    exact ih (fun y hy => hx y (by simp [hy]))

theorem span_append_all {p : Char → Bool} {xs ys : List Char}
    (hx : ∀ x ∈ xs, p x = true) (hy : ys.takeWhile p = []) :
    (xs ++ ys).span p = (xs, ys) := by
  rw [List.span_eq_take_drop, takeWhile_append_all hx, dropWhile_append_all hx, hy]
  have : ys.dropWhile p = ys := by
    cases ys with
    | nil => rfl
    | cons y t =>
      simp only [List.takeWhile_cons] at hy
      split at hy
      · exact absurd hy (by simp)
      · simpa [List.dropWhile_cons] using by simp_all
  rw [this, List.append_nil]

theorem digitChar_isDigit {k : Nat} (h : k < 10) : (digitChar k).isDigit = true := by
  interval_cases k <;> decide

theorem digitChar_val {k : Nat} (h : k < 10) : (digitChar k).toNat - 48 = k := by
  interval_cases k <;> decide

theorem natChars_ne_nil (n : Nat) : natChars n ≠ [] := by
  by_cases h : n < 10
  · rw [natChars, dif_pos h]; simp
  · rw [natChars, dif_neg h]; simp

theorem natChars_digits (n : Nat) : ∀ c ∈ natChars n, c.isDigit = true := by
  induction n using Nat.strong_induction_on with
  | _ n ih =>
    by_cases h : n < 10
    · rw [natChars, dif_pos h]
      intro c hc
      simp only [List.mem_singleton] at hc
      subst hc
      exact digitChar_isDigit h
    · rw [natChars, dif_neg h]
      intro c hc
      rcases List.mem_append.1 hc with h2 | h2
      · exact ih (n / 10) (Nat.div_lt_self (by omega) (by omega)) c h2
      · simp only [List.mem_singleton] at h2
        subst h2
        exact digitChar_isDigit (Nat.mod_lt _ (by omega))

theorem digitsToNat_append (xs : List Char) (d : Char) :
    digitsToNat (xs ++ [d]) = digitsToNat xs * 10 + (d.toNat - 48) := by
  simp [digitsToNat, List.foldl_append]

theorem digitsToNat_natChars (n : Nat) : digitsToNat (natChars n) = n := by
  induction n using Nat.strong_induction_on with
  | _ n ih =>
    by_cases h : n < 10
    · rw [natChars, dif_pos h]
      have := digitChar_val h
      simp [digitsToNat]
      omega
    · rw [natChars, dif_neg h, digitsToNat_append,
        ih (n / 10) (Nat.div_lt_self (by omega) (by omega)),
        digitChar_val (Nat.mod_lt _ (by omega))]
      omega

theorem numWithOptCount_render (n : Nat) (oc : Option Nat) (t : List Char) :
    numWithOptCount (natChars n ++ (countPart oc ++ (' ' :: t)))
      = some (n, oc, ' ' :: t) := by
  cases oc with
  | none =>
    unfold numWithOptCount
    rw [show countPart none = [] from rfl,
      List.nil_append,
      span_append_all (natChars_digits n) (by simp [List.takeWhile_cons])]
    rcases hn : natChars n with _ | ⟨c, cs⟩
    · exact absurd hn (natChars_ne_nil n)
    · have hv : digitsToNat (c :: cs) = n := hn ▸ digitsToNat_natChars n
      simp [hv]
  | some k =>
    unfold numWithOptCount
    rw [show countPart (some k) = ',' :: natChars k from rfl,
      span_append_all (natChars_digits n) (by simp [List.takeWhile_cons])]
    rcases hn : natChars n with _ | ⟨c, cs⟩
    · exact absurd hn (natChars_ne_nil n)
    · have hv : digitsToNat (c :: cs) = n := hn ▸ digitsToNat_natChars n
      rw [show (',' :: natChars k) ++ (' ' :: t) = ',' :: (natChars k ++ (' ' :: t)) from rfl]
      simp only []
      rw [span_append_all (natChars_digits k) (by simp [List.takeWhile_cons])]
      rcases hk : natChars k with _ | ⟨c2, cs2⟩
      · exact absurd hk (natChars_ne_nil k)
      · have hv2 : digitsToNat (c2 :: cs2) = k := hk ▸ digitsToNat_natChars k
        simp [hv, hv2]

theorem numWithOptCount_render_none (n : Nat) (t : List Char) :
    numWithOptCount (natChars n ++ (' ' :: t)) = some (n, none, ' ' :: t) :=
  numWithOptCount_render n none t

theorem numWithOptCount_render_some (n k : Nat) (t : List Char) :
    numWithOptCount (natChars n ++ (',' :: (natChars k ++ (' ' :: t))))
      = some (n, some k, ' ' :: t) :=
  numWithOptCount_render n (some k) t

theorem takeWhile_ws_cons {c : Char} (hc : jsWs c = false) (X : List Char) :
    List.takeWhile jsWs (' ' :: c :: X) = [' '] := by
  simp [List.takeWhile_cons, hc, show jsWs ' ' = true from rfl]

theorem dropWhile_ws_cons {c : Char} (hc : jsWs c = false) (X : List Char) :
    List.dropWhile jsWs (' ' :: c :: X) = c :: X := by
  simp [List.dropWhile_cons, hc, show jsWs ' ' = true from rfl]

theorem matchHunkHeader_render (h : RawHunk) (hf : h.heading.any jsDotFails = false) :
    matchHunkHeader (renderHunkHeader h)
      = some ⟨h.oldStart, h.oldCount, h.newStart, h.newCount, h.heading⟩ := by
  have hws1 : jsWs '-' = false := rfl
  have hws2 : jsWs '+' = false := rfl
  have hws3 : jsWs '@' = false := rfl
  have hf2 : ¬ ∃ x ∈ h.heading, jsDotFails x = true := by simpa using hf
  rcases hoc : h.oldCount with _ | k1 <;> rcases hnc : h.newCount with _ | k2
  · rw [show renderHunkHeader h =
        '@' :: '@' :: ' ' :: '-' :: (natChars h.oldStart ++ (' ' :: ('+' ::
          (natChars h.newStart ++ (' ' :: ('@' :: '@' :: h.heading)))))) from by
      simp [renderHunkHeader, countPart, hoc, hnc]]
    simp [matchHunkHeader, takeWhile_ws_cons hws1, takeWhile_ws_cons hws2,
      takeWhile_ws_cons hws3, dropWhile_ws_cons hws1, dropWhile_ws_cons hws2,
      dropWhile_ws_cons hws3, numWithOptCount_render_none, numWithOptCount_render_some, hf2]
  · rw [show renderHunkHeader h =
        '@' :: '@' :: ' ' :: '-' :: (natChars h.oldStart ++ (' ' :: ('+' ::
          (natChars h.newStart ++ (',' :: (natChars k2 ++
            (' ' :: ('@' :: '@' :: h.heading)))))))) from by
      simp [renderHunkHeader, countPart, hoc, hnc]]
    simp [matchHunkHeader, takeWhile_ws_cons hws1, takeWhile_ws_cons hws2,
      takeWhile_ws_cons hws3, dropWhile_ws_cons hws1, dropWhile_ws_cons hws2,
      dropWhile_ws_cons hws3, numWithOptCount_render_none, numWithOptCount_render_some, hf2]
  · rw [show renderHunkHeader h =
        '@' :: '@' :: ' ' :: '-' :: (natChars h.oldStart ++ (',' :: (natChars k1 ++
          (' ' :: ('+' :: (natChars h.newStart ++
            (' ' :: ('@' :: '@' :: h.heading)))))))) from by
      simp [renderHunkHeader, countPart, hoc, hnc]]
    simp [matchHunkHeader, takeWhile_ws_cons hws1, takeWhile_ws_cons hws2,
      takeWhile_ws_cons hws3, dropWhile_ws_cons hws1, dropWhile_ws_cons hws2,
      dropWhile_ws_cons hws3, numWithOptCount_render_none, numWithOptCount_render_some, hf2]
  · rw [show renderHunkHeader h =
        '@' :: '@' :: ' ' :: '-' :: (natChars h.oldStart ++ (',' :: (natChars k1 ++
          (' ' :: ('+' :: (natChars h.newStart ++ (',' :: (natChars k2 ++
            (' ' :: ('@' :: '@' :: h.heading)))))))))) from by
      simp [renderHunkHeader, countPart, hoc, hnc]]
    simp [matchHunkHeader, takeWhile_ws_cons hws1, takeWhile_ws_cons hws2,
      takeWhile_ws_cons hws3, dropWhile_ws_cons hws1, dropWhile_ws_cons hws2,
      dropWhile_ws_cons hws3, numWithOptCount_render_none, numWithOptCount_render_some, hf2]

/-! ### Line-splitting inversion -/

theorem noCRLF_forall {l : List Char} (h : noCRLF l = true) :
    ∀ c ∈ l, c ≠ '\n' ∧ c ≠ '\r' := by
  intro c hc
  simp only [noCRLF, Bool.and_eq_true, Bool.not_eq_true'] at h
  constructor
  · intro e
    subst e
    have : l.contains '\n' = true := by
      simp [List.contains_iff_exists_mem_beq]
      exact hc
    rw [this] at h
    exact Bool.noConfusion h.1
  · intro e
    subst e
    have : l.contains '\r' = true := by
      simp [List.contains_iff_exists_mem_beq]
      exact hc
    rw [this] at h
    exact Bool.noConfusion h.2

theorem splitLinesAux_cons_ne (c : Char) (t acc : List Char)
    (out : List (List Char)) (hn : c ≠ '\n') (hr : c ≠ '\r') :
    splitLinesAux (c :: t) acc out = splitLinesAux t (c :: acc) out := by
  rw [splitLinesAux.eq_def]
  split <;> simp_all

theorem splitLinesAux_line (l : List Char) (hl : ∀ c ∈ l, c ≠ '\n' ∧ c ≠ '\r') :
    ∀ rest acc out, splitLinesAux (l ++ rest) acc out = splitLinesAux rest (l.reverse ++ acc) out := by
  induction l with
  | nil => intro rest acc out; simp
  | cons c t ih =>
    intro rest acc out
    have hc := hl c (by simp)
    rw [List.cons_append,
      splitLinesAux_cons_ne c (t ++ rest) acc out hc.1 hc.2,
      ih (fun x hx => hl x (by simp [hx])) rest (c :: acc) out]
    simp

theorem splitLinesAux_nl (t acc : List Char) (out : List (List Char)) :
    splitLinesAux ('\n' :: t) acc out = splitLinesAux t [] (out ++ [acc.reverse]) := by
  rw [splitLinesAux.eq_def]
  split <;> first
    | (rename_i hall hne heq; injection heq with h1 h2; exact absurd h1.symm hne)
    | simp_all

theorem splitLinesAux_nil (acc : List Char) (out : List (List Char)) :
    splitLinesAux [] acc out = out ++ [acc.reverse] := rfl

theorem splitLinesAux_join (x : List Char) (L : List (List Char)) :
    (∀ y ∈ x :: L, noCRLF y = true) → ∀ (acc : List Char) (out : List (List Char)),
    splitLinesAux (joinLines (x :: L)) acc out = out ++ (acc.reverse ++ x) :: L := by
  induction L generalizing x with
  | nil =>
    intro h acc out
    rw [show joinLines [x] = x from rfl]
    have hx := splitLinesAux_line x (noCRLF_forall (h x (by simp))) [] acc out
    rw [List.append_nil] at hx
    rw [hx, splitLinesAux_nil]
    simp
  | cons y L ih =>
    intro h acc out
    rw [show joinLines (x :: y :: L) = x ++ '\n' :: joinLines (y :: L) from rfl]
    rw [splitLinesAux_line x (noCRLF_forall (h x (by simp))) _ acc out]
    rw [splitLinesAux_nl]
    rw [ih y (fun z hz => h z (by simp at hz ⊢; tauto)) [] (out ++ [(x.reverse ++ acc).reverse])]
    simp

theorem splitLines_joinLines (L : List (List Char)) (hL : ∀ x ∈ L, noCRLF x = true)
    (hne : L ≠ []) : splitLines (String.mk (joinLines L)) = L := by
  cases L with
  | nil => exact absurd rfl hne
  | cons x t =>
    rw [splitLines,
      show (String.mk (joinLines (x :: t))).data = joinLines (x :: t) from rfl,
      splitLinesAux_join x t hL [] []]
    simp

/-! ### No-CR/LF facts for rendered lines -/

theorem noCRLF_of_forall {l : List Char} (h : ∀ c ∈ l, c ≠ '\n' ∧ c ≠ '\r') :
    noCRLF l = true := by
  simp only [noCRLF, Bool.and_eq_true, Bool.not_eq_true']
  constructor
  · by_contra hc
    simp only [Bool.not_eq_false] at hc
    have : '\n' ∈ l := by simpa [List.contains_iff_exists_mem_beq] using hc
    exact (h _ this).1 rfl
  · by_contra hc
    simp only [Bool.not_eq_false] at hc
    have : '\r' ∈ l := by simpa [List.contains_iff_exists_mem_beq] using hc
    exact (h _ this).2 rfl

theorem noCRLF_append {a b : List Char} (ha : noCRLF a = true) (hb : noCRLF b = true) :
    noCRLF (a ++ b) = true := by
  apply noCRLF_of_forall
  intro c hc
  rcases List.mem_append.1 hc with h | h
  · exact noCRLF_forall ha c h
  · exact noCRLF_forall hb c h

theorem not_mem_of_contains_false {l : List Char} {c : Char}
    (h : l.contains c = false) : c ∉ l := by
  intro m
  have hc : l.contains c = true := by
    simp only [List.contains_iff_exists_mem_beq]
    exact ⟨c, m, by simp⟩
  rw [hc] at h
  exact Bool.noConfusion h

theorem digit_not_crlf {c : Char} (h : c.isDigit = true) : c ≠ '\n' ∧ c ≠ '\r' := by
  constructor <;> intro e <;> subst e <;> exact absurd h (by decide)

theorem natChars_noCRLF (n : Nat) : noCRLF (natChars n) = true :=
  noCRLF_of_forall (fun c hc => digit_not_crlf (natChars_digits n c hc))

theorem countPart_noCRLF (oc : Option Nat) : noCRLF (countPart oc) = true := by
  cases oc with
  | none => decide
  | some k =>
    show noCRLF ([','] ++ natChars k) = true
    exact noCRLF_append (by decide) (natChars_noCRLF k)

theorem heading_noCRLF {hd : List Char} (h1 : hd.contains '\n' = false)
    (h2 : hd.any jsDotFails = false) : noCRLF hd = true := by
  apply noCRLF_of_forall
  intro c hc
  constructor
  · intro e
    subst e
    exact absurd hc (not_mem_of_contains_false h1)
  · intro e
    subst e
    have ha : hd.any jsDotFails = true := by
      simp only [List.any_eq_true]
      exact ⟨'\r', hc, by decide⟩
    rw [ha] at h2
    exact Bool.noConfusion h2

theorem header_noCRLF (h : RawHunk) (h1 : h.heading.contains '\n' = false)
    (h2 : h.heading.any jsDotFails = false) : noCRLF (renderHunkHeader h) = true := by
  unfold renderHunkHeader
  repeat' apply noCRLF_append
  all_goals first
    | decide
    | exact natChars_noCRLF _
    | exact countPart_noCRLF _
    | exact heading_noCRLF h1 h2

theorem contentLine_noCRLF (rl : RawLine) (hv : validRawLine rl = true) :
    noCRLF (renderOp rl.op :: rl.text) = true := by
  have ht : noCRLF rl.text = true := by
    simp only [validRawLine, Bool.and_eq_true] at hv
    exact hv.1.1
  show noCRLF ([renderOp rl.op] ++ rl.text) = true
  refine noCRLF_append ?_ ht
  cases rl.op <;> decide

theorem render_mem_noCRLF (d : RawDiff) (hv : validDiff d = true) :
    ∀ l ∈ renderDiffLines d, noCRLF l = true := by
  intro l hl
  simp only [renderDiffLines, List.mem_append] at hl
  rcases hl with hl | hl
  · rcases List.mem_flatMap.1 hl with ⟨b, hb, hlb⟩
    have hvb : validBlock b = true := by
      simp only [validDiff, List.all_eq_true] at hv
      exact hv b hb
    simp only [validBlock, Bool.and_eq_true] at hvb
    simp only [renderBlock, List.mem_cons, List.mem_append] at hlb
    rcases hlb with rfl | hlb | hlb
    · exact hvb.1.1.2
    · have := hvb.1.2
      simp only [List.all_eq_true] at this
      have h2 := this l hlb
      simp only [Bool.and_eq_true] at h2
      exact h2.2
    · rcases hbody : b.body with hs | mk
      · rw [hbody] at hlb
        simp only [renderBody] at hlb
        rcases List.mem_flatMap.1 hlb with ⟨hk, hhk, hlhk⟩
        have hvh : validRawHunk hk = true := by
          have := hvb.2
          rw [hbody] at this
          simp only [List.all_eq_true] at this
          exact this hk hhk
        simp only [validRawHunk, Bool.and_eq_true, Bool.not_eq_true'] at hvh
        simp only [renderRawHunk, List.mem_cons] at hlhk
        rcases hlhk with rfl | hlhk
        · exact header_noCRLF hk hvh.1.1 hvh.1.2
        · rcases List.mem_flatMap.1 hlhk with ⟨rl, hrl, hlrl⟩
          have hvl : validRawLine rl = true := by
            have := hvh.2
            simp only [List.all_eq_true] at this
            exact this rl hrl
          simp only [renderRawLine, List.mem_cons] at hlrl
          rcases hlrl with rfl | hlrl
          · exact contentLine_noCRLF rl hvl
          · have : l = noNewlineMarker := by
              rcases hnn : rl.noNewline with _ | _ <;> rw [hnn] at hlrl <;> simp_all
            rw [this]
            decide
      · rw [hbody] at hlb
        simp only [renderBody, List.mem_singleton] at hlb
        subst hlb
        have := hvb.2
        rw [hbody] at this
        simp only [Bool.and_eq_true] at this
        exact this.2
  · have : l = [] := by
      rcases hfn : d.finalNewline with _ | _ <;> rw [hfn] at hl <;> simp_all
    rw [this]
    decide

theorem splitLines_render (d : RawDiff) (hv : validDiff d = true)
    (hne : renderDiffLines d ≠ []) :
    splitLines (renderRawDiff d) = renderDiffLines d := by
  rw [renderRawDiff]
  exact splitLines_joinLines _ (render_mem_noCRLF d hv) hne

theorem renderDiffLines_ne_nil (d : RawDiff)
    (h : d.blocks ≠ [] ∨ d.finalNewline = true) : renderDiffLines d ≠ [] := by
  rcases h with h | h
  · rcases hb : d.blocks with _ | ⟨b, bs⟩
    · exact absurd hb h
    · intro he
      simp [renderDiffLines, hb, renderBlock] at he
  · intro he
    rw [renderDiffLines, h] at he
    simp at he

/-! ### The raw tokenizer on rendered lines -/

theorem hasPfx_cons_ne {p : String} {q : Char} {pt : List Char} (hp : p.data = q :: pt)
    {c : Char} (hne : c ≠ q) (t : List Char) : hasPfx p (c :: t) = false := by
  simp only [hasPfx, hp, List.isPrefixOf]
  have hq : (q == c) = false := beq_eq_false_iff_ne.mpr (Ne.symm hne)
  simp [hq]

theorem marker_cons : noNewlineMarker = '\\' :: " No newline at end of file".data := rfl

theorem renderOp_ne_marker (op : LineOp) (t : List Char) :
    renderOp op :: t ≠ noNewlineMarker := by
  intro h
  rw [marker_cons] at h
  cases op <;> (injection h with h1 h2; exact absurd h1 (by decide))

theorem header_pfx (h : RawHunk) : hasPfx "@@ -" (renderHunkHeader h) = true := by
  rw [show renderHunkHeader h = "@@ -".data ++ (natChars h.oldStart ++ (countPart h.oldCount ++
      (" +".data ++ (natChars h.newStart ++ (countPart h.newCount ++
        (" @@".data ++ h.heading)))))) from by
    simp [renderHunkHeader, List.append_assoc]]
  exact hasPfx_self_append _ _

theorem header_pfx2 (h : RawHunk) : hasPfx "@@ " (renderHunkHeader h) = true :=
  hasPfx_mono (by decide) (header_pfx h)

theorem header_ne_marker (h : RawHunk) : renderHunkHeader h ≠ noNewlineMarker := by
  intro e
  have hp := header_pfx2 h
  rw [e] at hp
  exact absurd hp (by decide)

theorem tokenize_skip_nil (M : List (List Char)) :
    tokenizeRawLines ([] :: M) = tokenizeRawLines M := by
  have h0 : hasPfx "@@ " ([] : List Char) = false := by decide
  cases M <;> simp [tokenizeRawLines, h0]

theorem tokenize_skip_ne (c : Char) (t : List Char) (M : List (List Char))
    (h0 : c ≠ '@') (h1 : c ≠ ' ') (h2 : c ≠ '+') (h3 : c ≠ '-') :
    tokenizeRawLines ((c :: t) :: M) = tokenizeRawLines M := by
  have hAt : hasPfx "@@ " (c :: t) = false := hasPfx_cons_ne rfl h0 t
  have e1 : (c == ' ') = false := beq_eq_false_iff_ne.mpr h1
  have e2 : (c == '+') = false := beq_eq_false_iff_ne.mpr h2
  have e3 : (c == '-') = false := beq_eq_false_iff_ne.mpr h3
  cases M <;> simp [tokenizeRawLines, hAt, e1, e2, e3]

theorem tokenize_skip_ann (c : Char) (t : List Char) (M : List (List Char))
    (hca : c = '-' ∨ c = '+')
    (h : hasPfx "--- " (c :: t) = true ∨ hasPfx "+++ " (c :: t) = true) :
    tokenizeRawLines ((c :: t) :: M) = tokenizeRawLines M := by
  have hAt : hasPfx "@@ " (c :: t) = false := by
    rcases hca with rfl | rfl <;> exact hasPfx_cons_ne rfl (by decide) t
  have hann : (hasPfx "--- " (c :: t) || hasPfx "+++ " (c :: t)) = true := by
    rcases h with h | h <;> simp [h]
  have hct : (c == ' ' || c == '+' || c == '-') = true := by
    rcases hca with rfl | rfl <;> decide
  cases M <;> simp [tokenizeRawLines, hAt, hann, hct]

theorem tokenize_header (l : List Char) (M : List (List Char))
    (hl : hasPfx "@@ " l = true) :
    tokenizeRawLines (l :: M) = .header (String.mk l) :: tokenizeRawLines M := by
  cases M <;> simp [tokenizeRawLines, hl]

theorem hasPfx_dash3 (t : List Char) : hasPfx "--- " ('-' :: t) = hasPfx "-- " t := by
  simp [hasPfx, List.isPrefixOf]

theorem hasPfx_plus3 (t : List Char) : hasPfx "+++ " ('+' :: t) = hasPfx "++ " t := by
  simp [hasPfx, List.isPrefixOf]

theorem tokenize_content (rl : RawLine) (M : List (List Char))
    (hv : validRawLine rl = true)
    (hm : ∀ x, M.head? = some x → x ≠ noNewlineMarker) :
    tokenizeRawLines (renderRawLine rl ++ M)
      = .line rl.op (String.mk rl.text) rl.noNewline :: tokenizeRawLines M := by
  simp only [validRawLine, Bool.and_eq_true, Bool.not_eq_true'] at hv
  have hAt : hasPfx "@@ " (renderOp rl.op :: rl.text) = false := by
    cases rl.op <;> exact hasPfx_cons_ne rfl (by decide) rl.text
  have hct : (renderOp rl.op == ' ' || renderOp rl.op == '+' || renderOp rl.op == '-') = true := by
    cases rl.op <;> decide
  have hoc : opOfChar (renderOp rl.op) = rl.op := by cases rl.op <;> rfl
  have hann : (hasPfx "--- " (renderOp rl.op :: rl.text)
      || hasPfx "+++ " (renderOp rl.op :: rl.text)) = false := by
    cases hop : rl.op with
    | context =>
      rw [show renderOp .context = ' ' from rfl,
        hasPfx_cons_ne rfl (by decide) rl.text, hasPfx_cons_ne rfl (by decide) rl.text]
      rfl
    | del =>
      rw [show renderOp .del = '-' from rfl, hasPfx_dash3,
        hasPfx_cons_ne rfl (by decide) rl.text]
      have hd : hasPfx "-- " rl.text = false := by
        have h2 := hv.1.2
        rw [hop] at h2
        have h3 : (LineOp.del == LineOp.del) = true → hasPfx "-- " rl.text = false := by
          simpa using h2
        exact h3 (by decide)
      simp [hd]
    | add =>
      rw [show renderOp .add = '+' from rfl, hasPfx_plus3,
        hasPfx_cons_ne rfl (by decide) rl.text]
      have hd : hasPfx "++ " rl.text = false := by
        have h2 := hv.2
        rw [hop] at h2
        have h3 : (LineOp.add == LineOp.add) = true → hasPfx "++ " rl.text = false := by
          simpa using h2
        exact h3 (by decide)
      simp [hd]
  rcases hnn : rl.noNewline with _ | _
  · rw [show renderRawLine rl ++ M = (renderOp rl.op :: rl.text) :: M from by
      simp [renderRawLine, hnn]]
    cases M with
    | nil => simp [tokenizeRawLines, hAt, hct, hann, hoc, hnn]
    | cons m r =>
      have hm2 : ¬ (m = noNewlineMarker) := hm m rfl
      simp [tokenizeRawLines, hAt, hct, hann, hoc, hnn, hm2]
  · rw [show renderRawLine rl ++ M
        = (renderOp rl.op :: rl.text) :: noNewlineMarker :: M from by
      simp [renderRawLine, hnn]]
    simp [tokenizeRawLines, hAt, hct, hann, hoc, hnn]

theorem render_body_head_ne (body : List RawLine) (M : List (List Char))
    (hm : ∀ x, M.head? = some x → x ≠ noNewlineMarker) :
    ∀ x, (body.flatMap renderRawLine ++ M).head? = some x → x ≠ noNewlineMarker := by
  cases body with
  | nil => simpa using hm
  | cons rl b2 =>
    intro x hx
    simp only [List.flatMap_cons, renderRawLine, List.cons_append, List.append_assoc,
      List.head?_cons] at hx
    injection hx with hx
    rw [← hx]
    exact renderOp_ne_marker rl.op rl.text

theorem tokenize_body (body : List RawLine) (M : List (List Char))
    (hm : ∀ x, M.head? = some x → x ≠ noNewlineMarker) :
    body.all validRawLine = true →
    tokenizeRawLines (body.flatMap renderRawLine ++ M)
      = body.map (fun rl => HunkToken.line rl.op (String.mk rl.text) rl.noNewline)
          ++ tokenizeRawLines M := by
  induction body with
  | nil => intro _; simp
  | cons rl b2 ih =>
    intro hv
    simp only [List.all_cons, Bool.and_eq_true] at hv
    rw [show (rl :: b2).flatMap renderRawLine ++ M
        = renderRawLine rl ++ (b2.flatMap renderRawLine ++ M) from by
      simp [List.flatMap_cons, List.append_assoc]]
    rw [tokenize_content rl _ hv.1 (render_body_head_ne b2 M hm), ih hv.2]
    simp

theorem tokenize_hunk (h : RawHunk) (M : List (List Char))
    (hv : validRawHunk h = true)
    (hm : ∀ x, M.head? = some x → x ≠ noNewlineMarker) :
    tokenizeRawLines (renderRawHunk h ++ M)
      = HunkToken.header (String.mk (renderHunkHeader h))
          :: h.body.map (fun rl => HunkToken.line rl.op (String.mk rl.text) rl.noNewline)
          ++ tokenizeRawLines M := by
  simp only [validRawHunk, Bool.and_eq_true] at hv
  rw [show renderRawHunk h ++ M
      = renderHunkHeader h :: (h.body.flatMap renderRawLine ++ M) from by
    simp [renderRawHunk]]
  rw [tokenize_header _ _ (header_pfx2 h), tokenize_body h.body M hm hv.2]
  simp

theorem render_hunks_head_ne (hs : List RawHunk) (M : List (List Char))
    (hm : ∀ x, M.head? = some x → x ≠ noNewlineMarker) :
    ∀ x, (hs.flatMap renderRawHunk ++ M).head? = some x → x ≠ noNewlineMarker := by
  cases hs with
  | nil => simpa using hm
  | cons h hs2 =>
    intro x hx
    simp only [List.flatMap_cons, renderRawHunk, List.cons_append, List.append_assoc,
      List.head?_cons] at hx
    injection hx with hx
    rw [← hx]
    exact header_ne_marker h

theorem tokenize_hunks (hs : List RawHunk) (M : List (List Char))
    (hm : ∀ x, M.head? = some x → x ≠ noNewlineMarker) :
    hs.all validRawHunk = true →
    tokenizeRawLines (hs.flatMap renderRawHunk ++ M)
      = shapeTokens (hs.map astHunkShape) ++ tokenizeRawLines M := by
  induction hs with
  | nil => intro _; simp [shapeTokens]
  | cons h hs2 ih =>
    intro hv
    simp only [List.all_cons, Bool.and_eq_true] at hv
    rw [show (h :: hs2).flatMap renderRawHunk ++ M
        = renderRawHunk h ++ (hs2.flatMap renderRawHunk ++ M) from by
      simp [List.append_assoc]]
    rw [tokenize_hunk h _ hv.1 (render_hunks_head_ne hs2 M hm), ih hv.2]
    simp [shapeTokens, astHunkShape, rawShape, List.map_map, Function.comp]

theorem tokenize_meta_skip (m : List Char) (M : List (List Char))
    (hmk : metaLineOk m = true) :
    tokenizeRawLines (m :: M) = tokenizeRawLines M := by
  simp only [metaLineOk, Bool.or_eq_true] at hmk
  rcases hmk with ((((((((((h | h) | h) | h) | h) | h) | h) | h) | h) | h) | h)
  · rcases hasPfx_head rfl h with ⟨t, rfl⟩
    exact tokenize_skip_ne 'o' t M (by decide) (by decide) (by decide) (by decide)
  · rcases hasPfx_head rfl h with ⟨t, rfl⟩
    exact tokenize_skip_ne 'n' t M (by decide) (by decide) (by decide) (by decide)
  · rcases hasPfx_head rfl h with ⟨t, rfl⟩
    exact tokenize_skip_ne 's' t M (by decide) (by decide) (by decide) (by decide)
  · rcases hasPfx_head rfl h with ⟨t, rfl⟩
    exact tokenize_skip_ne 'r' t M (by decide) (by decide) (by decide) (by decide)
  · rcases hasPfx_head rfl h with ⟨t, rfl⟩
    exact tokenize_skip_ne 'r' t M (by decide) (by decide) (by decide) (by decide)
  · rcases hasPfx_head rfl h with ⟨t, rfl⟩
    exact tokenize_skip_ne 'c' t M (by decide) (by decide) (by decide) (by decide)
  · rcases hasPfx_head rfl h with ⟨t, rfl⟩
    exact tokenize_skip_ne 'c' t M (by decide) (by decide) (by decide) (by decide)
  · rcases hasPfx_head rfl h with ⟨t, rfl⟩
    exact tokenize_skip_ne 'i' t M (by decide) (by decide) (by decide) (by decide)
  · rcases hasPfx_head rfl h with ⟨t, rfl⟩
    exact tokenize_skip_ann '-' t M (.inl rfl) (.inl h)
  · rcases hasPfx_head rfl h with ⟨t, rfl⟩
    exact tokenize_skip_ann '+' t M (.inr rfl) (.inr h)
  · have hsplit : hasPfx "Binary files " m = true ∨ m = "GIT binary patch".data := by
      by_cases hb2 : hasPfx "Binary files " m = true
      · exact .inl hb2
      · right
        rw [Bool.not_eq_true] at hb2
        have h2 : (m == "GIT binary patch".data) = true := by
          simp only [isBinaryMarker, hb2, Bool.false_or] at h
          exact h
        simpa using h2
    rcases hsplit with h2 | h2
    · rcases hasPfx_head rfl h2 with ⟨t, rfl⟩
      exact tokenize_skip_ne 'B' t M (by decide) (by decide) (by decide) (by decide)
    · rw [h2, show "GIT binary patch".data = 'G' :: "IT binary patch".data from rfl]
      exact tokenize_skip_ne 'G' _ M (by decide) (by decide) (by decide) (by decide)

theorem tokenize_meta (ms : List (List Char)) (M : List (List Char)) :
    (∀ m ∈ ms, metaLineOk m = true) →
    tokenizeRawLines (ms ++ M) = tokenizeRawLines M := by
  induction ms with
  | nil => intro _; simp
  | cons m ms2 ih =>
    intro hv
    rw [List.cons_append, tokenize_meta_skip m _ (hv m (by simp)),
      ih (fun x hx => hv x (by simp [hx]))]

theorem tokenize_block (b : RawFileBlock) (M : List (List Char))
    (hv : validBlock b = true)
    (hm : ∀ x, M.head? = some x → x ≠ noNewlineMarker) :
    tokenizeRawLines (renderBlock b ++ M)
      = shapeTokens (blockShape b) ++ tokenizeRawLines M := by
  simp only [validBlock, Bool.and_eq_true] at hv
  rw [show renderBlock b ++ M = b.gitLine :: (b.meta ++ (renderBody b.body ++ M)) from by
    simp [renderBlock, List.append_assoc]]
  rcases hasPfx_head rfl hv.1.1.1 with ⟨t, hgit⟩
  rw [hgit, tokenize_skip_ne 'd' t _ (by decide) (by decide) (by decide) (by decide)]
  rw [tokenize_meta _ _ (fun m hm2 => by
    have := hv.1.2
    simp only [List.all_eq_true] at this
    have h2 := this m hm2
    simp only [Bool.and_eq_true] at h2
    exact h2.1)]
  rcases hbody : b.body with hs | mk
  · rw [show renderBody (RawBody.hunks hs) ++ M = hs.flatMap renderRawHunk ++ M from rfl]
    have hvh : hs.all validRawHunk = true := by
      have := hv.2
      rw [hbody] at this
      exact this
    rw [tokenize_hunks hs M hm hvh,
      show blockShape b = hs.map astHunkShape from by simp [blockShape, hbody]]
  · rw [show renderBody (RawBody.binary mk) ++ M = mk :: M from rfl]
    have hbm : isBinaryMarker mk = true := by
      have := hv.2
      rw [hbody] at this
      simp only [Bool.and_eq_true] at this
      exact this.1
    rw [tokenize_meta_skip mk M (by simp [metaLineOk, hbm]),
      show blockShape b = [] from by simp [blockShape, hbody]]
    simp [shapeTokens]

theorem render_blocks_head_ne (bs : List RawFileBlock) (M : List (List Char))
    (hv : ∀ b ∈ bs, validBlock b = true)
    (hm : ∀ x, M.head? = some x → x ≠ noNewlineMarker) :
    ∀ x, (bs.flatMap renderBlock ++ M).head? = some x → x ≠ noNewlineMarker := by
  cases bs with
  | nil => simpa using hm
  | cons b bs2 =>
    intro x hx
    simp only [List.flatMap_cons, renderBlock, List.cons_append, List.append_assoc,
      List.head?_cons] at hx
    injection hx with hx
    rw [← hx]
    intro e
    have hb := hv b (by simp)
    simp only [validBlock, Bool.and_eq_true] at hb
    have hp := hb.1.1.1
    rw [e] at hp
    exact absurd hp (by decide)

theorem tokenize_blocks (bs : List RawFileBlock) (M : List (List Char))
    (hm : ∀ x, M.head? = some x → x ≠ noNewlineMarker) :
    (∀ b ∈ bs, validBlock b = true) →
    tokenizeRawLines (bs.flatMap renderBlock ++ M)
      = bs.flatMap (fun b => shapeTokens (blockShape b)) ++ tokenizeRawLines M := by
  induction bs with
  | nil => intro _; simp
  | cons b bs2 ih =>
    intro hv
    rw [show (b :: bs2).flatMap renderBlock ++ M
        = renderBlock b ++ (bs2.flatMap renderBlock ++ M) from by
      simp [List.append_assoc]]
    rw [tokenize_block b _ (hv b (by simp))
        (render_blocks_head_ne bs2 M (fun x hx => hv x (by simp [hx])) hm),
      ih (fun x hx => hv x (by simp [hx]))]
    simp [List.append_assoc]

theorem tokenize_render (d : RawDiff) (hv : validDiff d = true) :
    tokenizeRawLines (renderDiffLines d) = astTokens d := by
  have hvb : ∀ b ∈ d.blocks, validBlock b = true := by
    simp only [validDiff, List.all_eq_true] at hv
    exact hv
  rw [renderDiffLines,
    tokenize_blocks d.blocks _ (fun x hx => by
      rcases hf : d.finalNewline with _ | _ <;> rw [hf] at hx <;> simp at hx
      rw [hx]
      decide) hvb,
    show tokenizeRawLines (if d.finalNewline then [[]] else []) = [] from by
      rcases hf : d.finalNewline with _ | _ <;> simp [hf] <;> rfl]
  rw [List.append_nil]
  rfl

theorem tokenizeRaw_render (d : RawDiff) (hv : validDiff d = true)
    (hne : renderDiffLines d ≠ []) :
    tokenizeRawDiffHunks (renderRawDiff d) = astTokens d := by
  rw [tokenizeRawDiffHunks, renderRawDiff,
    splitLines_joinLines _ (render_mem_noCRLF d hv) hne]
  exact tokenize_render d hv

/-! ### The outer loop on rendered lines -/

theorem mkString_ne_empty (c : Char) (t : List Char) : String.mk (c :: t) ≠ "" := by
  intro h
  have h2 := congrArg String.data h
  simp at h2

theorem hunkHeaderToken_mkHunk (pathOld pathNew : Option String) (idx : Nat)
    (m : HunkHdrMatch) (c : Char) (t : List Char) :
    hunkHeaderToken (mkHunk pathOld pathNew idx m (c :: t))
      = .header (String.mk (c :: t)) := by
  have hne : (String.mk (c :: t) == "") = false :=
    beq_eq_false_iff_ne.mpr (mkString_ne_empty c t)
  simp [hunkHeaderToken, mkHunk, hne]

theorem isDiffGit_cons_false {c : Char} (t : List Char) (h1 : c ≠ 'd') :
    isDiffGit (c :: t) = false := by
  show hasPfx "diff --git " (c :: t) = false
  exact hasPfx_cons_ne rfl h1 t

theorem isHunkBreak_cons_false {c : Char} (t : List Char) (h1 : c ≠ 'd') (h2 : c ≠ '@')
    (h3 : c ≠ 'i') (h4 : c ≠ 'B') (h5 : c ≠ 'G') : isHunkBreak (c :: t) = false := by
  have e1 : hasPfx "diff --git " (c :: t) = false := hasPfx_cons_ne rfl h1 t
  have e2 : hasPfx "@@ " (c :: t) = false := hasPfx_cons_ne rfl h2 t
  have e3 : hasPfx "index " (c :: t) = false := hasPfx_cons_ne rfl h3 t
  have e4 : hasPfx "Binary files " (c :: t) = false := hasPfx_cons_ne rfl h4 t
  have e5 : hasPfx "GIT binary patch" (c :: t) = false := hasPfx_cons_ne rfl h5 t
  simp [isHunkBreak, isDiffGit, e1, e2, e3, e4, e5]

theorem classifyTop_header (h : RawHunk) (hf : h.heading.any jsDotFails = false) :
    classifyTop (renderHunkHeader h)
      = .hunkHdr ⟨h.oldStart, h.oldCount, h.newStart, h.newCount, h.heading⟩ := by
  have hp := header_pfx h
  have e1 : hasPfx "index " (renderHunkHeader h) = false := hasPfx_excl (by decide) (by decide) hp
  have e2 : hasPfx "old mode " (renderHunkHeader h) = false := hasPfx_excl (by decide) (by decide) hp
  have e3 : hasPfx "new mode " (renderHunkHeader h) = false := hasPfx_excl (by decide) (by decide) hp
  have e4 : hasPfx "similarity index " (renderHunkHeader h) = false := hasPfx_excl (by decide) (by decide) hp
  have e5 : hasPfx "rename from " (renderHunkHeader h) = false := hasPfx_excl (by decide) (by decide) hp
  have e6 : hasPfx "rename to " (renderHunkHeader h) = false := hasPfx_excl (by decide) (by decide) hp
  have e7 : hasPfx "copy from " (renderHunkHeader h) = false := hasPfx_excl (by decide) (by decide) hp
  have e8 : hasPfx "copy to " (renderHunkHeader h) = false := hasPfx_excl (by decide) (by decide) hp
  have e9 : hasPfx "--- " (renderHunkHeader h) = false := hasPfx_excl (by decide) (by decide) hp
  have e10 : hasPfx "+++ " (renderHunkHeader h) = false := hasPfx_excl (by decide) (by decide) hp
  have e11 : hasPfx "Binary files " (renderHunkHeader h) = false :=
    hasPfx_excl (by decide) (by decide) hp
  have e12 : (renderHunkHeader h == "GIT binary patch".data) = false := by
    apply beq_eq_false_iff_ne.mpr
    intro e
    have hp2 := hp
    rw [e] at hp2
    exact absurd hp2 (by decide)
  simp [classifyTop, e1, e2, e3, e4, e5, e6, e7, e8, e9, e10, isBinaryMarker, e11, e12,
    matchHunkHeader_render h hf]

theorem meta_notgit (m : List Char) (hmk : metaLineOk m = true) :
    isDiffGit m = false := by
  show hasPfx "diff --git " m = false
  simp only [metaLineOk, Bool.or_eq_true] at hmk
  rcases hmk with ((((((((((h | h) | h) | h) | h) | h) | h) | h) | h) | h) | h)
  · rcases hasPfx_head rfl h with ⟨t, rfl⟩
    exact hasPfx_excl (by decide) (by decide) h
  · rcases hasPfx_head rfl h with ⟨t, rfl⟩
    exact hasPfx_excl (by decide) (by decide) h
  · rcases hasPfx_head rfl h with ⟨t, rfl⟩
    exact hasPfx_excl (by decide) (by decide) h
  · rcases hasPfx_head rfl h with ⟨t, rfl⟩
    exact hasPfx_excl (by decide) (by decide) h
  · rcases hasPfx_head rfl h with ⟨t, rfl⟩
    exact hasPfx_excl (by decide) (by decide) h
  · rcases hasPfx_head rfl h with ⟨t, rfl⟩
    exact hasPfx_excl (by decide) (by decide) h
  · rcases hasPfx_head rfl h with ⟨t, rfl⟩
    exact hasPfx_excl (by decide) (by decide) h
  · rcases hasPfx_head rfl h with ⟨t, rfl⟩
    exact hasPfx_excl (by decide) (by decide) h
  · rcases hasPfx_head rfl h with ⟨t, rfl⟩
    exact hasPfx_excl (by decide) (by decide) h
  · rcases hasPfx_head rfl h with ⟨t, rfl⟩
    exact hasPfx_excl (by decide) (by decide) h
  · have hsplit : hasPfx "Binary files " m = true ∨ m = "GIT binary patch".data := by
      by_cases hb2 : hasPfx "Binary files " m = true
      · exact .inl hb2
      · right
        rw [Bool.not_eq_true] at hb2
        have h2 : (m == "GIT binary patch".data) = true := by
          simp only [isBinaryMarker, hb2, Bool.false_or] at h
          exact h
        simpa using h2
    rcases hsplit with h2 | h2
    · exact hasPfx_excl (by decide) (by decide) h2
    · rw [h2]
      decide

theorem meta_inl (m : List Char) (cur : CurFile) (hmk : metaLineOk m = true) :
    ∃ cur', topStep m cur = .inl cur' ∧ cur'.hunksRev = cur.hunksRev := by
  simp only [metaLineOk, Bool.or_eq_true] at hmk
  rcases hmk with ((((((((((h | h) | h) | h) | h) | h) | h) | h) | h) | h) | h)
  · have hck : classifyTop m = .oldMode := by
      have x1 : hasPfx "index " m = false := hasPfx_excl (by decide) (by decide) h
      simp [classifyTop, x1, h]
    refine ⟨applyOldMode (pushRawLine m cur) m, ?_, ?_⟩
    · simp [topStep, hck]
    · rfl
  · have hck : classifyTop m = .newMode := by
      have x1 : hasPfx "index " m = false := hasPfx_excl (by decide) (by decide) h
      have x2 : hasPfx "old mode " m = false := hasPfx_excl (by decide) (by decide) h
      simp [classifyTop, x1, x2, h]
    refine ⟨applyNewMode (pushRawLine m cur) m, ?_, ?_⟩
    · simp [topStep, hck]
    · rfl
  · have hck : classifyTop m = .similarity := by
      have x1 : hasPfx "index " m = false := hasPfx_excl (by decide) (by decide) h
      have x2 : hasPfx "old mode " m = false := hasPfx_excl (by decide) (by decide) h
      have x3 : hasPfx "new mode " m = false := hasPfx_excl (by decide) (by decide) h
      simp [classifyTop, x1, x2, x3, h]
    refine ⟨applySimilarity (pushRawLine m cur) m, ?_, ?_⟩
    · simp [topStep, hck]
    · rw [applySimilarity_hunksRev]
      rfl
  · have hck : classifyTop m = .renameFrom := by
      have x1 : hasPfx "index " m = false := hasPfx_excl (by decide) (by decide) h
      have x2 : hasPfx "old mode " m = false := hasPfx_excl (by decide) (by decide) h
      have x3 : hasPfx "new mode " m = false := hasPfx_excl (by decide) (by decide) h
      have x4 : hasPfx "similarity index " m = false := hasPfx_excl (by decide) (by decide) h
      simp [classifyTop, x1, x2, x3, x4, h]
    refine ⟨applyRenameFrom (pushRawLine m cur) m, ?_, ?_⟩
    · simp [topStep, hck]
    · rfl
  · have hck : classifyTop m = .renameTo := by
      have x1 : hasPfx "index " m = false := hasPfx_excl (by decide) (by decide) h
      have x2 : hasPfx "old mode " m = false := hasPfx_excl (by decide) (by decide) h
      have x3 : hasPfx "new mode " m = false := hasPfx_excl (by decide) (by decide) h
      have x4 : hasPfx "similarity index " m = false := hasPfx_excl (by decide) (by decide) h
      have x5 : hasPfx "rename from " m = false := hasPfx_excl (by decide) (by decide) h
      simp [classifyTop, x1, x2, x3, x4, x5, h]
    refine ⟨applyRenameTo (pushRawLine m cur) m, ?_, ?_⟩
    · simp [topStep, hck]
    · rfl
  · have hck : classifyTop m = .copyFrom := by
      have x1 : hasPfx "index " m = false := hasPfx_excl (by decide) (by decide) h
      have x2 : hasPfx "old mode " m = false := hasPfx_excl (by decide) (by decide) h
      have x3 : hasPfx "new mode " m = false := hasPfx_excl (by decide) (by decide) h
      have x4 : hasPfx "similarity index " m = false := hasPfx_excl (by decide) (by decide) h
      have x5 : hasPfx "rename from " m = false := hasPfx_excl (by decide) (by decide) h
      have x6 : hasPfx "rename to " m = false := hasPfx_excl (by decide) (by decide) h
      simp [classifyTop, x1, x2, x3, x4, x5, x6, h]
    refine ⟨applyCopyFrom (pushRawLine m cur) m, ?_, ?_⟩
    · simp [topStep, hck]
    · rfl
  · have hck : classifyTop m = .copyTo := by
      have x1 : hasPfx "index " m = false := hasPfx_excl (by decide) (by decide) h
      have x2 : hasPfx "old mode " m = false := hasPfx_excl (by decide) (by decide) h
      have x3 : hasPfx "new mode " m = false := hasPfx_excl (by decide) (by decide) h
      have x4 : hasPfx "similarity index " m = false := hasPfx_excl (by decide) (by decide) h
      have x5 : hasPfx "rename from " m = false := hasPfx_excl (by decide) (by decide) h
      have x6 : hasPfx "rename to " m = false := hasPfx_excl (by decide) (by decide) h
      have x7 : hasPfx "copy from " m = false := hasPfx_excl (by decide) (by decide) h
      simp [classifyTop, x1, x2, x3, x4, x5, x6, x7, h]
    refine ⟨applyCopyTo (pushRawLine m cur) m, ?_, ?_⟩
    · simp [topStep, hck]
    · rfl
  · have hck : classifyTop m = .indexLine := by
      simp [classifyTop, h]
    refine ⟨applyIndex (pushRawLine m cur) m, ?_, ?_⟩
    · simp [topStep, hck]
    · rw [applyIndex_hunksRev]
      rfl
  · have hck : classifyTop m = .pathOldLine := by
      have x1 : hasPfx "index " m = false := hasPfx_excl (by decide) (by decide) h
      have x2 : hasPfx "old mode " m = false := hasPfx_excl (by decide) (by decide) h
      have x3 : hasPfx "new mode " m = false := hasPfx_excl (by decide) (by decide) h
      have x4 : hasPfx "similarity index " m = false := hasPfx_excl (by decide) (by decide) h
      have x5 : hasPfx "rename from " m = false := hasPfx_excl (by decide) (by decide) h
      have x6 : hasPfx "rename to " m = false := hasPfx_excl (by decide) (by decide) h
      have x7 : hasPfx "copy from " m = false := hasPfx_excl (by decide) (by decide) h
      have x8 : hasPfx "copy to " m = false := hasPfx_excl (by decide) (by decide) h
      simp [classifyTop, x1, x2, x3, x4, x5, x6, x7, x8, h]
    refine ⟨applyPathOld (pushRawLine m cur) m, ?_, ?_⟩
    · simp [topStep, hck]
    · rfl
  · have hck : classifyTop m = .pathNewLine := by
      have x1 : hasPfx "index " m = false := hasPfx_excl (by decide) (by decide) h
      have x2 : hasPfx "old mode " m = false := hasPfx_excl (by decide) (by decide) h
      have x3 : hasPfx "new mode " m = false := hasPfx_excl (by decide) (by decide) h
      have x4 : hasPfx "similarity index " m = false := hasPfx_excl (by decide) (by decide) h
      have x5 : hasPfx "rename from " m = false := hasPfx_excl (by decide) (by decide) h
      have x6 : hasPfx "rename to " m = false := hasPfx_excl (by decide) (by decide) h
      have x7 : hasPfx "copy from " m = false := hasPfx_excl (by decide) (by decide) h
      have x8 : hasPfx "copy to " m = false := hasPfx_excl (by decide) (by decide) h
      have x9 : hasPfx "--- " m = false := hasPfx_excl (by decide) (by decide) h
      simp [classifyTop, x1, x2, x3, x4, x5, x6, x7, x8, x9, h]
    refine ⟨applyPathNew (pushRawLine m cur) m, ?_, ?_⟩
    · simp [topStep, hck]
    · rfl
  · have hck : classifyTop m = .binary := by
      have hsplit : hasPfx "Binary files " m = true ∨ m = "GIT binary patch".data := by
        by_cases hb2 : hasPfx "Binary files " m = true
        · exact .inl hb2
        · right
          rw [Bool.not_eq_true] at hb2
          have h2 : (m == "GIT binary patch".data) = true := by
            simp only [isBinaryMarker, hb2, Bool.false_or] at h
            exact h
          simpa using h2
      rcases hsplit with h2 | h2
      · have hb : isBinaryMarker m = true := by
          simp [isBinaryMarker, h2]
        have x1 : hasPfx "index " m = false := hasPfx_excl (by decide) (by decide) h2
        have x2 : hasPfx "old mode " m = false := hasPfx_excl (by decide) (by decide) h2
        have x3 : hasPfx "new mode " m = false := hasPfx_excl (by decide) (by decide) h2
        have x4 : hasPfx "similarity index " m = false := hasPfx_excl (by decide) (by decide) h2
        have x5 : hasPfx "rename from " m = false := hasPfx_excl (by decide) (by decide) h2
        have x6 : hasPfx "rename to " m = false := hasPfx_excl (by decide) (by decide) h2
        have x7 : hasPfx "copy from " m = false := hasPfx_excl (by decide) (by decide) h2
        have x8 : hasPfx "copy to " m = false := hasPfx_excl (by decide) (by decide) h2
        have x9 : hasPfx "--- " m = false := hasPfx_excl (by decide) (by decide) h2
        have x10 : hasPfx "+++ " m = false := hasPfx_excl (by decide) (by decide) h2
        simp [classifyTop, x1, x2, x3, x4, x5, x6, x7, x8, x9, x10, hb]
      · rw [h2]
        decide
    refine ⟨applyBinary (pushRawLine m cur), ?_, ?_⟩
    · simp [topStep, hck]
    · rfl

/-! ### The inner line loop on rendered hunk bodies -/

theorem parse_step_content (seed : String) (op : LineOp) (text : List Char)
    (M : List (List Char)) (cur : CurFile) (p : Pending) (acc : List FileDiff) :
    ∃ p1 a1 d1,
      parseLines seed ((renderOp op :: text) :: M) (.inHunk cur p) acc
        = parseLines seed M (.inHunk { cur with additions := a1, deletions := d1 } p1) acc
      ∧ p1.hunk = p.hunk
      ∧ ∃ e, p1.linesRev = e :: p.linesRev
          ∧ lineShape e = (op, String.mk text, false) := by
  have hbrk : isHunkBreak (renderOp op :: text) = false := by
    cases op <;>
      exact isHunkBreak_cons_false _ (by decide) (by decide) (by decide) (by decide) (by decide)
  have hnem : ¬(renderOp op :: text = noNewlineMarker) := renderOp_ne_marker op text
  cases op with
  | context =>
    refine ⟨{ p with
        linesRev := ⟨toString (p.linesRev.length + 1), .context, String.mk text,
          some p.oldNum, some p.newNum, false⟩ :: p.linesRev,
        oldNum := p.oldNum + 1, newNum := p.newNum + 1 },
      cur.additions, cur.deletions, ?_, rfl, ⟨_, rfl, by simp [lineShape]⟩⟩
    simp only [renderOp] at hbrk hnem
    simp [parseLines, hbrk, hunkBodyStep, hnem, renderOp]
  | add =>
    refine ⟨{ p with
        linesRev := ⟨toString (p.linesRev.length + 1), .add, String.mk text,
          none, some p.newNum, false⟩ :: p.linesRev,
        newNum := p.newNum + 1 },
      cur.additions + 1, cur.deletions, ?_, rfl, ⟨_, rfl, by simp [lineShape]⟩⟩
    simp only [renderOp] at hbrk hnem
    simp [parseLines, hbrk, hunkBodyStep, hnem, renderOp]
  | del =>
    refine ⟨{ p with
        linesRev := ⟨toString (p.linesRev.length + 1), .del, String.mk text,
          some p.oldNum, none, false⟩ :: p.linesRev,
        oldNum := p.oldNum + 1 },
      cur.additions, cur.deletions + 1, ?_, rfl, ⟨_, rfl, by simp [lineShape]⟩⟩
    simp only [renderOp] at hbrk hnem
    simp [parseLines, hbrk, hunkBodyStep, hnem, renderOp]

theorem parse_step_marker (seed : String) (M : List (List Char)) (cur : CurFile)
    (p : Pending) (acc : List FileDiff) :
    parseLines seed (noNewlineMarker :: M) (.inHunk cur p) acc
      = parseLines seed M (.inHunk cur { p with linesRev := setHeadNoNewline p.linesRev }) acc := by
  have hbrk : isHunkBreak noNewlineMarker = false := by decide
  simp [parseLines, hbrk, hunkBodyStep]

theorem parse_body (seed : String) (body : List RawLine) :
    ∀ (rest : List (List Char)) (cur : CurFile) (p : Pending) (acc : List FileDiff),
    ∃ p2 a2 d2,
      parseLines seed (body.flatMap renderRawLine ++ rest) (.inHunk cur p) acc
        = parseLines seed rest (.inHunk { cur with additions := a2, deletions := d2 } p2) acc
      ∧ p2.hunk = p.hunk
      ∧ p2.linesRev.map lineShape = (body.map rawShape).reverse ++ p.linesRev.map lineShape := by
  induction body with
  | nil =>
    intro rest cur p acc
    refine ⟨p, cur.additions, cur.deletions, ?_, rfl, by simp⟩
    rw [show ({ cur with additions := cur.additions, deletions := cur.deletions } : CurFile)
      = cur from rfl]
    simp
  | cons rl b2 ih =>
    intro rest cur p acc
    rcases hnn : rl.noNewline with _ | _
    · rw [show (rl :: b2).flatMap renderRawLine ++ rest
          = (renderOp rl.op :: rl.text) :: (b2.flatMap renderRawLine ++ rest) from by
        simp [renderRawLine, hnn]]
      obtain ⟨p1, a1, d1, hstep, hh1, e, he, hse⟩ :=
        parse_step_content seed rl.op rl.text (b2.flatMap renderRawLine ++ rest) cur p acc
      rw [hstep]
      obtain ⟨p2, a2, d2, hrec, hh2, hs2⟩ :=
        ih rest { cur with additions := a1, deletions := d1 } p1 acc
      refine ⟨p2, a2, d2, ?_, hh2.trans hh1, ?_⟩
      · rw [hrec]
      · rw [hs2, he]
        simp [rawShape, hnn, hse]
    · rw [show (rl :: b2).flatMap renderRawLine ++ rest
          = (renderOp rl.op :: rl.text)
              :: (noNewlineMarker :: (b2.flatMap renderRawLine ++ rest)) from by
        simp [renderRawLine, hnn]]
      obtain ⟨p1, a1, d1, hstep, hh1, e, he, hse⟩ :=
        parse_step_content seed rl.op rl.text
          (noNewlineMarker :: (b2.flatMap renderRawLine ++ rest)) cur p acc
      rw [hstep, parse_step_marker]
      obtain ⟨p2, a2, d2, hrec, hh2, hs2⟩ :=
        ih rest { cur with additions := a1, deletions := d1 }
          { p1 with linesRev := setHeadNoNewline p1.linesRev } acc
      simp only [lineShape, Prod.mk.injEq] at hse
      refine ⟨p2, a2, d2, ?_, hh2.trans hh1, ?_⟩
      · rw [hrec]
      · rw [hs2, he]
        simp [setHeadNoNewline, lineShape, rawShape, hnn, hse.1, hse.2.1]

theorem hunkShape_attach (p : Pending) :
    hunkShape { p.hunk with lines := p.linesRev.reverse }
      = (hunkHeaderToken p.hunk, p.linesRev.reverse.map lineShape) := rfl

theorem finalFiles_shape (seed : String) (st : PState) :
    (finalFiles seed st).map fileShape = stShapes st := by
  cases st with
  | noFile => rfl
  | top cur => simp [finalFiles, stShapes, fileShape, mkFile, List.map_reverse]
  | inHunk cur p =>
    simp [finalFiles, stShapes, fileShape, mkFile, attachPending, List.map_reverse,
      hunkShape_attach]

theorem parse_hunks (seed : String) (hs : List RawHunk) :
    ∀ (rest : List (List Char)) (st : PState)
      (sh : List (HunkToken × List (LineOp × String × Bool))) (acc : List FileDiff),
    hs.all validRawHunk = true → stShapes st = [sh] →
    ∃ st', parseLines seed (hs.flatMap renderRawHunk ++ rest) st acc
        = parseLines seed rest st' acc
      ∧ stShapes st' = [sh ++ hs.map astHunkShape] := by
  induction hs with
  | nil =>
    intro rest st sh acc _ hsh
    exact ⟨st, by simp, by simp [hsh]⟩
  | cons h hs2 ih =>
    intro rest st sh acc hv hsh
    simp only [List.all_cons, Bool.and_eq_true] at hv
    have hfjd : h.heading.any jsDotFails = false := by
      have h2 := hv.1
      simp only [validRawHunk, Bool.and_eq_true, Bool.not_eq_true'] at h2
      exact h2.1.2
    have hgit : isDiffGit (renderHunkHeader h) = false := by
      rcases hasPfx_head rfl (header_pfx h) with ⟨t, e⟩
      rw [e]
      exact isDiffGit_cons_false t (by decide)
    have hck := classifyTop_header h hfjd
    rcases hasPfx_head rfl (header_pfx h) with ⟨t0, hcons⟩
    rw [show (h :: hs2).flatMap renderRawHunk ++ rest
        = renderHunkHeader h
            :: (h.body.flatMap renderRawLine ++ (hs2.flatMap renderRawHunk ++ rest)) from by
      simp [renderRawHunk, List.append_assoc]]
    cases st with
    | noFile => simp [stShapes] at hsh
    | top cur =>
      have hsh2 : (cur.hunksRev.map hunkShape).reverse = sh := by simpa [stShapes] using hsh
      have hstep : parseLines seed (renderHunkHeader h
            :: (h.body.flatMap renderRawLine ++ (hs2.flatMap renderRawHunk ++ rest)))
            (.top cur) acc
          = parseLines seed (h.body.flatMap renderRawLine ++ (hs2.flatMap renderRawHunk ++ rest))
              (.inHunk (pushRawLine (renderHunkHeader h) cur)
                (startHunk (pushRawLine (renderHunkHeader h) cur)
                  ⟨h.oldStart, h.oldCount, h.newStart, h.newCount, h.heading⟩
                  (renderHunkHeader h)).2) acc := by
        simp [parseLines, hgit, topStep, hck, startHunk]
      rw [hstep]
      obtain ⟨p2, a2, d2, hbody, hh2, hs2shape⟩ :=
        parse_body seed h.body (hs2.flatMap renderRawHunk ++ rest)
          (pushRawLine (renderHunkHeader h) cur)
          (startHunk (pushRawLine (renderHunkHeader h) cur)
            ⟨h.oldStart, h.oldCount, h.newStart, h.newCount, h.heading⟩
            (renderHunkHeader h)).2 acc
      rw [hbody]
      have htok : hunkHeaderToken p2.hunk = .header (String.mk (renderHunkHeader h)) := by
        rw [hh2]
        simp only [startHunk]
        rw [hcons]
        exact hunkHeaderToken_mkHunk _ _ _ _ '@' t0
      have hlines : p2.linesRev.reverse.map lineShape = h.body.map rawShape := by
        rw [List.map_reverse, hs2shape]
        simp [startHunk]
      obtain ⟨st', hrest, hsh'⟩ := ih rest
        (.inHunk { pushRawLine (renderHunkHeader h) cur with additions := a2, deletions := d2 } p2)
        (sh ++ [astHunkShape h]) acc hv.2 (by
        simp only [stShapes, pushRawLine]
        rw [htok, hlines, ← hsh2]
        simp [astHunkShape])
      exact ⟨st', by rw [hrest], by rw [hsh']; simp⟩
    | inHunk cur p =>
      have hsh2 : (cur.hunksRev.map hunkShape).reverse
          ++ [(hunkHeaderToken p.hunk, p.linesRev.reverse.map lineShape)] = sh := by
        simpa [stShapes] using hsh
      have hbreak : isHunkBreak (renderHunkHeader h) = true := by
        simp [isHunkBreak, header_pfx2 h]
      have hstep : parseLines seed (renderHunkHeader h
            :: (h.body.flatMap renderRawLine ++ (hs2.flatMap renderRawHunk ++ rest)))
            (.inHunk cur p) acc
          = parseLines seed (h.body.flatMap renderRawLine ++ (hs2.flatMap renderRawHunk ++ rest))
              (.inHunk (pushRawLine (renderHunkHeader h) (attachPending cur p))
                (startHunk (pushRawLine (renderHunkHeader h) (attachPending cur p))
                  ⟨h.oldStart, h.oldCount, h.newStart, h.newCount, h.heading⟩
                  (renderHunkHeader h)).2) acc := by
        simp [parseLines, hbreak, hgit, topStep, hck, startHunk]
      rw [hstep]
      obtain ⟨p2, a2, d2, hbody, hh2, hs2shape⟩ :=
        parse_body seed h.body (hs2.flatMap renderRawHunk ++ rest)
          (pushRawLine (renderHunkHeader h) (attachPending cur p))
          (startHunk (pushRawLine (renderHunkHeader h) (attachPending cur p))
            ⟨h.oldStart, h.oldCount, h.newStart, h.newCount, h.heading⟩
            (renderHunkHeader h)).2 acc
      rw [hbody]
      have htok : hunkHeaderToken p2.hunk = .header (String.mk (renderHunkHeader h)) := by
        rw [hh2]
        simp only [startHunk]
        rw [hcons]
        exact hunkHeaderToken_mkHunk _ _ _ _ '@' t0
      have hlines : p2.linesRev.reverse.map lineShape = h.body.map rawShape := by
        rw [List.map_reverse, hs2shape]
        simp [startHunk]
      obtain ⟨st', hrest, hsh'⟩ := ih rest
        (.inHunk { pushRawLine (renderHunkHeader h) (attachPending cur p) with
          additions := a2, deletions := d2 } p2)
        (sh ++ [astHunkShape h]) acc hv.2 (by
        simp only [stShapes, pushRawLine, attachPending]
        rw [htok, hlines, ← hsh2]
        simp [astHunkShape, hunkShape_attach, List.append_assoc])
      exact ⟨st', by rw [hrest], by rw [hsh']; simp⟩

theorem parse_block (seed : String) (b : RawFileBlock) (hvb0 : validBlock b = true) :
    ∀ (rest : List (List Char)) (st : PState) (acc : List FileDiff),
    ∃ st', parseLines seed (renderBlock b ++ rest) st acc
        = parseLines seed rest st' (acc ++ finalFiles seed st)
      ∧ stShapes st' = [blockShape b] := by
  intro rest st acc
  have hvb := hvb0
  simp only [validBlock, Bool.and_eq_true] at hvb
  have hgit : isDiffGit b.gitLine = true := by
    simp [isDiffGit, hvb.1.1.1]
  rw [show renderBlock b ++ rest = b.gitLine :: (b.meta ++ (renderBody b.body ++ rest)) from by
    simp [renderBlock, List.append_assoc]]
  have hstep : parseLines seed (b.gitLine :: (b.meta ++ (renderBody b.body ++ rest))) st acc
      = parseLines seed (b.meta ++ (renderBody b.body ++ rest)) (.top (newCur b.gitLine))
          (acc ++ finalFiles seed st) := by
    cases st with
    | noFile => simp [parseLines, hgit, finalFiles]
    | top cur => simp [parseLines, hgit, finalFiles]
    | inHunk cur p =>
      have hbrk : isHunkBreak b.gitLine = true := by
        simp [isHunkBreak, isDiffGit, hvb.1.1.1]
      simp [parseLines, hbrk, hgit, finalFiles]
  rw [hstep]
  have hmeta : ∀ (ms : List (List Char)), (∀ m ∈ ms, metaLineOk m = true) →
      ∀ (cur : CurFile) (acc2 : List FileDiff) (L : List (List Char)),
      ∃ cur2, parseLines seed (ms ++ L) (.top cur) acc2 = parseLines seed L (.top cur2) acc2
        ∧ cur2.hunksRev = cur.hunksRev := by
    intro ms
    induction ms with
    | nil =>
      intro _ cur acc2 L
      exact ⟨cur, by simp, rfl⟩
    | cons m ms2 ih =>
      intro hall cur acc2 L
      have hmk := hall m (by simp)
      obtain ⟨cur1, hinl, hpres⟩ := meta_inl m cur hmk
      have hstep2 : parseLines seed ((m :: ms2) ++ L) (.top cur) acc2
          = parseLines seed (ms2 ++ L) (.top cur1) acc2 := by
        simp [parseLines, meta_notgit m hmk, hinl]
      obtain ⟨cur2, hrec, hpres2⟩ := ih (fun x hx => hall x (by simp [hx])) cur1 acc2 L
      exact ⟨cur2, hstep2.trans hrec, hpres2.trans hpres⟩
  obtain ⟨cur2, hmsteps, hpres⟩ := hmeta b.meta (fun m hm => by
      have h2 := hvb.1.2
      simp only [List.all_eq_true] at h2
      have h3 := h2 m hm
      simp only [Bool.and_eq_true] at h3
      exact h3.1) (newCur b.gitLine) (acc ++ finalFiles seed st) (renderBody b.body ++ rest)
  rw [hmsteps]
  rcases hbody : b.body with hs | mk
  · have hvh : hs.all validRawHunk = true := by
      have h2 := hvb.2
      rw [hbody] at h2
      exact h2
    have hshcur : stShapes (.top cur2) = [[]] := by
      simp [stShapes, hpres, newCur]
    obtain ⟨st', hrest, hsh'⟩ :=
      parse_hunks seed hs rest (.top cur2) [] (acc ++ finalFiles seed st) hvh hshcur
    refine ⟨st', ?_, ?_⟩
    · rw [show renderBody (RawBody.hunks hs) ++ rest = hs.flatMap renderRawHunk ++ rest from rfl]
      exact hrest
    · rw [hsh']
      simp [blockShape, hbody]
  · have hbm : isBinaryMarker mk = true := by
      have h2 := hvb.2
      rw [hbody] at h2
      simp only [Bool.and_eq_true] at h2
      exact h2.1
    have hmk2 : metaLineOk mk = true := by simp [metaLineOk, hbm]
    obtain ⟨cur3, hinl, hpres3⟩ := meta_inl mk cur2 hmk2
    have hstep3 : parseLines seed (renderBody (RawBody.binary mk) ++ rest) (.top cur2)
          (acc ++ finalFiles seed st)
        = parseLines seed rest (.top cur3) (acc ++ finalFiles seed st) := by
      simp [renderBody, parseLines, meta_notgit mk hmk2, hinl]
    refine ⟨.top cur3, hstep3, ?_⟩
    simp [stShapes, blockShape, hbody, hpres3, hpres, newCur]

theorem parse_blocks (seed : String) (bs : List RawFileBlock) :
    ∀ (rest : List (List Char)) (st : PState) (acc : List FileDiff),
    bs.all validBlock = true →
    ∃ st' fs, parseLines seed (bs.flatMap renderBlock ++ rest) st acc
        = parseLines seed rest st' (acc ++ fs)
      ∧ fs.map fileShape ++ stShapes st' = stShapes st ++ bs.map blockShape := by
  induction bs with
  | nil =>
    intro rest st acc _
    exact ⟨st, [], by simp, by simp⟩
  | cons b bs2 ih =>
    intro rest st acc hv
    simp only [List.all_cons, Bool.and_eq_true] at hv
    rw [show (b :: bs2).flatMap renderBlock ++ rest
        = renderBlock b ++ (bs2.flatMap renderBlock ++ rest) from by simp [List.append_assoc]]
    obtain ⟨st1, hblk, hsh1⟩ := parse_block seed b hv.1 (bs2.flatMap renderBlock ++ rest) st acc
    rw [hblk]
    obtain ⟨st2, fs2, hrec, hsh2⟩ := ih rest st1 (acc ++ finalFiles seed st) hv.2
    refine ⟨st2, finalFiles seed st ++ fs2, ?_, ?_⟩
    · rw [hrec, List.append_assoc]
    · rw [List.map_append, List.append_assoc, hsh2, hsh1, finalFiles_shape]
      simp

/-! ### End-to-end masters -/

theorem tokenizeBasic_shape (files : List FileDiff) :
    tokenizeBasicHunks files = (files.map fileShape).flatMap shapeTokens := by
  simp [tokenizeBasicHunks, fileShape, shapeTokens, hunkShape, lineShape,
    List.flatMap_map, List.map_map, Function.comp]
  rfl

theorem astTokens_eq (d : RawDiff) :
    astTokens d = (d.blocks.map blockShape).flatMap shapeTokens := by
  simp [astTokens, List.flatMap_map]

theorem parse_render_files (seed : String) (d : RawDiff) (hv : validDiff d = true)
    (hb : d.blocks ≠ []) (hf : d.finalNewline = false) :
    (parseLines seed (splitLines (renderRawDiff d)) .noFile []).map fileShape
      = d.blocks.map blockShape := by
  rw [splitLines_render d hv (renderDiffLines_ne_nil d (.inl hb)),
    show renderDiffLines d = d.blocks.flatMap renderBlock ++ [] from by
      simp [renderDiffLines, hf]]
  obtain ⟨st', fs, heq, hsh⟩ := parse_blocks seed d.blocks [] .noFile []
    (by simpa [validDiff] using hv)
  rw [heq, show parseLines seed [] st' ([] ++ fs) = ([] ++ fs) ++ finalFiles seed st' from by
    simp [parseLines]]
  simp only [List.nil_append, List.map_append, finalFiles_shape]
  simpa [stShapes] using hsh

theorem dropTrailing_snoc (x : List HunkToken) :
    dropTrailingEmptyContext (x ++ [.line .context "" false])
      = dropTrailingEmptyContext x := by
  have ht : isEmptyContextToken (.line .context "" false) = true := by decide
  simp [dropTrailingEmptyContext, ht, List.dropWhile_cons]

theorem shapeTokens_snoc_line (prev : List (HunkToken × List (LineOp × String × Bool)))
    (hdr : HunkToken) (L : List (LineOp × String × Bool)) :
    shapeTokens (prev ++ [(hdr, L ++ [(.context, "", false)])])
      = shapeTokens (prev ++ [(hdr, L)]) ++ [.line .context "" false] := by
  simp [shapeTokens, List.flatMap_append, List.map_append, List.append_assoc]

theorem parse_render_tokens (seed : String) (d : RawDiff) (hv : validDiff d = true)
    (hne : renderDiffLines d ≠ []) :
    tokenizeBasicHunks (parseLines seed (splitLines (renderRawDiff d)) .noFile [])
        = astTokens d
    ∨ tokenizeBasicHunks (parseLines seed (splitLines (renderRawDiff d)) .noFile [])
        = astTokens d ++ [.line .context "" false] := by
  rw [splitLines_render d hv hne, renderDiffLines]
  obtain ⟨st', fs, heq, hsh⟩ := parse_blocks seed d.blocks
    (if d.finalNewline then [[]] else []) .noFile [] (by simpa [validDiff] using hv)
  rw [heq]
  rcases hfn : d.finalNewline with _ | _
  · left
    rw [if_neg Bool.false_ne_true,
      show parseLines seed [] st' ([] ++ fs) = fs ++ finalFiles seed st' from by
        simp [parseLines]]
    rw [tokenizeBasic_shape, List.map_append, finalFiles_shape, astTokens_eq]
    have hsh' : fs.map fileShape ++ stShapes st' = d.blocks.map blockShape := by
      simpa [stShapes] using hsh
    rw [← hsh']
  · cases st' with
    | noFile =>
      left
      have hg : isDiffGit ([] : List Char) = false := by decide
      rw [if_pos rfl,
        show parseLines seed [[]] PState.noFile ([] ++ fs) = fs from by
          simp [parseLines, hg, finalFiles]]
      rw [tokenizeBasic_shape, astTokens_eq]
      have hsh' : fs.map fileShape = d.blocks.map blockShape := by
        simpa [stShapes] using hsh
      rw [hsh']
    | top cur =>
      left
      have hg : isDiffGit ([] : List Char) = false := by decide
      have hcl : classifyTop ([] : List Char) = .other := by decide
      rw [if_pos rfl,
        show parseLines seed [[]] (PState.top cur) ([] ++ fs)
            = fs ++ [mkFile seed (pushRawLine [] cur)] from by
          simp [parseLines, hg, topStep, hcl, finalFiles]]
      rw [tokenizeBasic_shape, List.map_append, astTokens_eq]
      have hfsh : fileShape (mkFile seed (pushRawLine [] cur))
          = (cur.hunksRev.map hunkShape).reverse := by
        simp [fileShape, mkFile, pushRawLine, List.map_reverse]
      simp only [List.map_cons, List.map_nil, hfsh]
      have hsh' : fs.map fileShape ++ [(cur.hunksRev.map hunkShape).reverse]
          = d.blocks.map blockShape := by
        simpa [stShapes] using hsh
      rw [← hsh']
    | inHunk cur p =>
      right
      have hbrk : isHunkBreak ([] : List Char) = false := by decide
      have hnem : ¬(([] : List Char) = noNewlineMarker) := by decide
      rw [if_pos rfl,
        show parseLines seed [[]] (PState.inHunk cur p) ([] ++ fs)
            = fs ++ [mkFile seed (attachPending cur
                { p with linesRev := ⟨toString (p.linesRev.length + 1), .context, String.mk [],
                    none, none, false⟩ :: p.linesRev })] from by
          simp [parseLines, hbrk, hunkBodyStep, hnem, finalFiles]]
      rw [tokenizeBasic_shape, List.map_append, astTokens_eq]
      have hsh' : fs.map fileShape ++ [(cur.hunksRev.map hunkShape).reverse
            ++ [(hunkHeaderToken p.hunk, p.linesRev.reverse.map lineShape)]]
          = d.blocks.map blockShape := by
        simpa [stShapes] using hsh
      rw [← hsh']
      have hfsh : fileShape (mkFile seed (attachPending cur
            { p with linesRev := ⟨toString (p.linesRev.length + 1), .context, String.mk [],
                none, none, false⟩ :: p.linesRev }))
          = (cur.hunksRev.map hunkShape).reverse
              ++ [(hunkHeaderToken p.hunk,
                    p.linesRev.reverse.map lineShape ++ [(.context, "", false)])] := by
        simp [fileShape, mkFile, attachPending, List.map_reverse, List.map_append,
          hunkShape, lineShape]
        rfl
      simp only [List.map_cons, List.map_nil, hfsh]
      rw [List.flatMap_append, List.flatMap_append]
      rw [show (([(cur.hunksRev.map hunkShape).reverse
            ++ [(hunkHeaderToken p.hunk,
                  p.linesRev.reverse.map lineShape ++ [(.context, "", false)])]]
          : List (List (HunkToken × List (LineOp × String × Bool)))).flatMap shapeTokens)
          = ([((cur.hunksRev.map hunkShape).reverse
              ++ [(hunkHeaderToken p.hunk, p.linesRev.reverse.map lineShape)])]
              : List (List (HunkToken × List (LineOp × String × Bool)))).flatMap shapeTokens
            ++ [.line .context "" false] from by
        simp only [List.flatMap_cons, List.flatMap_nil, List.append_nil]
        exact shapeTokens_snoc_line _ _ _]
      rw [List.append_assoc]

/-! ### C1 and C8 -/

/-- A valid raw diff exercising metadata, a section heading, all three line
kinds, the no-newline marker and a trailing final newline. -/
def rtWitness : RawDiff :=
  { blocks := [
      { gitLine := "diff --git a/f b/f".data
        meta := ["index 1111111..2222222 100644".data, "--- a/f".data, "+++ b/f".data]
        body := .hunks [
          { oldStart := 1, oldCount := some 2, newStart := 1, newCount := some 2,
            heading := " part".data,
            body := [
              ⟨.context, "keep".data, false⟩,
              ⟨.del, "old".data, false⟩,
              ⟨.add, "new".data, true⟩ ] } ] } ]
    finalNewline := true }

/-- A raw unified diff whose hunk deletes a line whose text begins
`"-- "`: the rendered line `--- gone` is a well-formed deletion in the
unified format, but the raw tokenizer discards it as a path
announcement. -/
def rtCexDiff : String :=
  "diff --git a/f b/f\n--- a/f\n+++ b/f\n@@ -1,2 +1 @@\n keep\n--- gone\n"

/-- C1 (amended): for every valid raw unified diff whose del lines do not
start `"-- "` and whose add lines do not start `"++ "` (those render as
`--- `/`+++ ` path-announcement look-alikes, which the raw tokenizer
discards anywhere), tokenizing the structured document built by
`parseUnifiedDiff` from the rendered text yields the same token sequence
as tokenizing the rendered text directly, modulo trailing empty context
tokens after the final hunk (dropped from both streams). -/
theorem roundtrip_fidelity (d : RawDiff) (hv : validDiff d = true) :
    dropTrailingEmptyContext (tokenizeBasicHunks (parseUnifiedDiff (renderRawDiff d)).files)
      = dropTrailingEmptyContext (tokenizeRawDiffHunks (renderRawDiff d)) := by
  by_cases hne : renderDiffLines d = []
  · have hb : d.blocks = [] := by
      rcases hbs : d.blocks with _ | ⟨b, bs⟩
      · rfl
      · exact absurd hne (renderDiffLines_ne_nil d (.inl (by rw [hbs]; simp)))
    have hf : d.finalNewline = false := by
      rcases hfn : d.finalNewline with _ | _
      · rfl
      · exact absurd hne (renderDiffLines_ne_nil d (.inr hfn))
    have hd : d = ⟨[], false⟩ := by
      cases d
      simp_all
    rw [hd]
    rfl
  · rw [tokenizeRaw_render d hv hne,
      show (parseUnifiedDiff (renderRawDiff d)).files
        = parseLines "" (splitLines (renderRawDiff d)) .noFile [] from rfl]
    rcases parse_render_tokens "" d hv hne with h | h
    · rw [h]
    · rw [h, dropTrailing_snoc]

/-- C1 counterexample: under the claim's original quantification over all
valid raw unified diffs, the deletion of a line whose text starts
`"-- "` breaks the round trip: the raw tokenizer skips its rendering
`--- gone` as a path announcement while the parser keeps it as a del
line, so the streams differ beyond trailing empty context tokens. -/
theorem roundtrip_fidelity_counterexample :
    dropTrailingEmptyContext (tokenizeBasicHunks (parseUnifiedDiff rtCexDiff).files)
      ≠ dropTrailingEmptyContext (tokenizeRawDiffHunks rtCexDiff) := by
  decide

/-- C1 witness: the round trip at a concrete valid diff. -/
theorem roundtrip_fidelity_witness :
    validDiff rtWitness = true ∧
      dropTrailingEmptyContext (tokenizeBasicHunks
          (parseUnifiedDiff (renderRawDiff rtWitness)).files)
        = dropTrailingEmptyContext (tokenizeRawDiffHunks (renderRawDiff rtWitness)) :=
  ⟨by decide, roundtrip_fidelity rtWitness (by decide)⟩

/-- The witness diff for C8, rendered without a trailing newline. -/
def nnpWitness : RawDiff :=
  { blocks := [
      { gitLine := "diff --git a/f b/f".data
        meta := ["--- a/f".data, "+++ b/f".data]
        body := .hunks [
          { oldStart := 1, oldCount := some 2, newStart := 1, newCount := some 2,
            heading := [],
            body := [
              ⟨.context, "keep".data, false⟩,
              ⟨.del, "old".data, true⟩,
              ⟨.add, "new".data, false⟩ ] } ] } ]
    finalNewline := false }

/-- C8: for every valid raw diff rendered without a trailing newline, the
parsed files reproduce, hunk by hunk, exactly the written lines as
(op, text, no-newline) triples: a hunk line immediately followed by the
standalone no-newline marker line has its flag true, every other parsed
line has it false, and the marker line itself is never emitted as
content. -/
theorem no_newline_propagation (d : RawDiff) (hv : validDiff d = true)
    (hf : d.finalNewline = false) :
    (parseUnifiedDiff (renderRawDiff d)).files.map fileShape
      = d.blocks.map blockShape := by
  by_cases hbe : d.blocks = []
  · have hd : d = ⟨[], false⟩ := by
      cases d
      simp_all
    rw [hd]
    rfl
  · rw [show (parseUnifiedDiff (renderRawDiff d)).files
      = parseLines "" (splitLines (renderRawDiff d)) .noFile [] from rfl]
    exact parse_render_files "" d hv hbe hf

/-- C8 witness: the flag propagation at a concrete valid diff with a
marker after its del line. -/
theorem no_newline_propagation_witness :
    validDiff nnpWitness = true ∧ nnpWitness.finalNewline = false ∧
      (parseUnifiedDiff (renderRawDiff nnpWitness)).files.map fileShape
        = nnpWitness.blocks.map blockShape :=
  ⟨by decide, by decide, no_newline_propagation nnpWitness (by decide) (by decide)⟩

end SharpTools
